import Mathlib

/-!
Shallow embedding of the EASTL heap algorithms (`heap.h`) over `List Int`.

The C++ code operates on a random-access range `[first, last)` with the
default `operator<` comparator (the overloads cited by the verification
targets).  We model the range as a `List Int`, positions as `Nat` indices,
reads as `List.getD` with default `0`, and writes as `List.set`.  All cited
operations only read and write indices inside the active region under their
preconditions, so the `getD` default is never observable there.
-/

namespace Eastl

/-- Read the element at index `i` (C++ `*(first + i)`). -/
def val (a : List Int) (i : Nat) : Int := a.getD i 0

/-- Parent index in the implicit binary tree: C++ `(position - 1) >> 1`. -/
def parent (c : Nat) : Nat := (c - 1) / 2

/-- `promoteHeap` (sift-up), from `heap.h` lines 65-77: while the position is
above `topPosition` and the parent compares lower than `value`, copy the
parent down into the vacated slot and move the vacancy up; finally store
`value` in the vacancy. -/
def promoteHeap (a : List Int) (topPosition position : Nat) (value : Int) : List Int :=
  if topPosition < position ∧ val a (parent position) < value then
    promoteHeap (a.set position (val a (parent position))) topPosition (parent position) value
  else
    a.set position value
termination_by position
decreasing_by
  rename_i h
  simp only [parent]
  omega

/-- The child selection of `adjustHeap`'s loop body (`heap.h` lines 129-130):
`childPosition` starts at the right child; decrement it when the left child
`childPosition - 1` is not smaller. -/
def pickChild (a : List Int) (childPosition : Nat) : Nat :=
  if val a childPosition < val a (childPosition - 1)
  then childPosition - 1 else childPosition

/-- The `for` loop of `adjustHeap` (`heap.h` lines 125-133): walk the vacancy
toward the leaves, always moving the larger child up into the vacancy.
Returns the array together with the final `position` and `childPosition`. -/
def adjustLoop (a : List Int) (heapSize position childPosition : Nat) :
    List Int × Nat × Nat :=
  if childPosition < heapSize then
    adjustLoop (a.set position (val a (pickChild a childPosition))) heapSize
      (pickChild a childPosition) (2 * pickChild a childPosition + 2)
  else
    (a, position, childPosition)
termination_by heapSize - childPosition
decreasing_by
  rename_i h
  have hc : childPosition < 2 * pickChild a childPosition + 2 := by
    simp only [pickChild]; split <;> omega
  exact Nat.sub_lt_sub_left h hc

/-- `adjustHeap` (sift-down), from `heap.h` lines 120-142: run the vacancy
down (`adjustLoop`), fix up a dangling left child when the loop stops exactly
at `heapSize`, then sift the carried `value` up from the resting point. -/
def adjustHeap (a : List Int) (topPosition heapSize position : Nat) (value : Int) :
    List Int :=
  let r := adjustLoop a heapSize position (2 * position + 2)
  if r.2.2 = heapSize then
    promoteHeap ((r.1).set r.2.1 (val r.1 (r.2.2 - 1))) topPosition (r.2.2 - 1) value
  else
    promoteHeap r.1 topPosition r.2.1 value

/-- `pushHeap` (`heap.h` lines 196-206) over the whole list `[first, last)`:
read the raw value at `last - 1` and sift it up from the bottom. -/
def pushHeap (a : List Int) : List Int :=
  promoteHeap a 0 (a.length - 1) (val a (a.length - 1))

/-- `popHeap` over the region `[0, n)`: save the back value, move the root
value to the back, then sift the saved value down over `[0, n-1)`
(`heap.h` lines 253-263 with `n = last - first`). -/
def popHeapN (a : List Int) (n : Nat) : List Int :=
  adjustHeap (a.set (n - 1) (val a 0)) 0 (n - 1) 0 (val a (n - 1))

/-- `popHeap` (`heap.h` lines 253-263) over the whole list. -/
def popHeap (a : List Int) : List Int := popHeapN a a.length

/-- The `do`-`while` loop of `makeHeap` (`heap.h` lines 316-321): decrement
`parentPosition`, snapshot the element there and sift it down rooted at that
position, until `parentPosition` reaches `0`. -/
def makeHeapLoop (a : List Int) (heapSize parentPosition : Nat) : List Int :=
  if parentPosition - 1 = 0 then
    adjustHeap a (parentPosition - 1) heapSize (parentPosition - 1)
      (val a (parentPosition - 1))
  else
    makeHeapLoop
      (adjustHeap a (parentPosition - 1) heapSize (parentPosition - 1)
        (val a (parentPosition - 1)))
      heapSize (parentPosition - 1)
termination_by parentPosition
decreasing_by omega

/-- `makeHeap` (`heap.h` lines 303-323): bottom-up heap construction; a no-op
when the region has fewer than two elements. -/
def makeHeap (a : List Int) : List Int :=
  if 2 ≤ a.length then makeHeapLoop a a.length ((a.length - 2) / 2 + 1) else a

/-- The loop of `sortHeap` (`heap.h` lines 366-371): pop over the shrinking
active region until its length is at most 1. -/
def sortHeapLoop (a : List Int) (n : Nat) : List Int :=
  if 1 < n then sortHeapLoop (popHeapN a n) (n - 1) else a
termination_by n
decreasing_by omega

/-- `sortHeap` (`heap.h` lines 366-371) over the whole list. -/
def sortHeap (a : List Int) : List Int := sortHeapLoop a a.length

/-- `removeHeap` (`heap.h` lines 404-414): save the back value, move the
value at `position` to the back, sift the saved back value down from
`position` over the shrunk region `[0, heapSize-1)`. -/
def removeHeap (a : List Int) (heapSize position : Nat) : List Int :=
  adjustHeap (a.set (heapSize - 1) (val a position)) 0 (heapSize - 1) position
    (val a (heapSize - 1))

/-- `changeHeap` (`heap.h` lines 451-463): remove the re-prioritized entry to
the back, then sift the value now at `heapSize-1` back up into the heap. -/
def changeHeap (a : List Int) (heapSize position : Nat) : List Int :=
  let a1 := removeHeap a heapSize position
  promoteHeap a1 0 (heapSize - 1) (val a1 (heapSize - 1))

/-- The loop of `isHeap_until` (`heap.h` lines 493-506): `p` is the index of
the current parent (`first` in the source moves forward), `child` scans from
index 1, and `counter` alternates 0/1 so the parent advances every other
step. -/
def isHeapUntilLoop (a : List Int) (n p child counter : Nat) : Nat :=
  if child < n then
    if val a p < val a child then child
    else isHeapUntilLoop a n (p + counter) (child + 1) (counter ^^^ 1)
  else n
termination_by n - child
decreasing_by omega

/-- `isHeap_until` (`heap.h` lines 493-506), returning the index of the first
violating child (or `a.length` when there is none). -/
def isHeap_until (a : List Int) : Nat := isHeapUntilLoop a a.length 0 1 0

/-- `isHeap` (`heap.h` lines 540-544): `isHeap_until == last`. -/
def isHeap (a : List Int) : Bool := isHeap_until a = a.length

/-- The max-heap invariant over the active region `[0, n)`: every non-root
index compares not-greater than its parent (`compare(parent, child)` is
false for every child in the region). -/
def isHeapProp (a : List Int) (n : Nat) : Prop :=
  ∀ c, c < n → 0 < c → val a c ≤ val a (parent c)

instance (a : List Int) (n : Nat) : Decidable (isHeapProp a n) := by
  unfold isHeapProp; exact Nat.decidableBallLT n _

/-- The literal reading of the `changeHeap` precondition: the heap invariant
holds for every parent-child pair in the region except pairs that involve
index `p` (as the child or as the parent). -/
def heapExceptAt (a : List Int) (n p : Nat) : Prop :=
  ∀ c, c < n → 0 < c → c ≠ p → parent c ≠ p → val a c ≤ val a (parent c)

instance (a : List Int) (n p : Nat) : Decidable (heapExceptAt a n p) := by
  unfold heapExceptAt; exact Nat.decidableBallLT n _

/-- `c` lies in the subtree rooted at `k` (`k` is an ancestor of `c` or `c`
itself), following parent links `(c-1)/2` of the implicit tree. -/
def isDesc (k c : Nat) : Bool :=
  if c ≤ k then c == k
  else isDesc k (parent c)
termination_by c
decreasing_by
  rename_i h
  simp only [parent]
  omega

/-- The sequence of values extracted by popping `n` times from the region
`[0, n)`: each pop deposits the extracted maximum at the back of the
shrinking region, where it is read off. -/
def popExtract (a : List Int) (n : Nat) : List Int :=
  match n with
  | 0 => []
  | Nat.succ m => (popHeapN a (m + 1)).getD m 0 :: popExtract (popHeapN a (m + 1)) m

/-! ### Fuel-indexed variants

Each loop of the source is also rendered as a structurally recursive
function on an explicit fuel counter, returning `none` when the fuel runs
out.  Proving `F fuel x = some (f x)` for an explicit fuel bound shows the
loop terminates within that many iterations — the strictly monotone bounded
measure of each loop.  The fuel variants are also the computable face of the
embedding: the kernel can evaluate them on concrete inputs. -/

def promoteHeapF : Nat → List Int → Nat → Nat → Int → Option (List Int)
  | 0, _, _, _, _ => none
  | fuel + 1, a, t, q, v =>
    if t < q ∧ val a (parent q) < v then
      promoteHeapF fuel (a.set q (val a (parent q))) t (parent q) v
    else some (a.set q v)

def adjustLoopF : Nat → List Int → Nat → Nat → Nat → Option (List Int × Nat × Nat)
  | 0, _, _, _, _ => none
  | fuel + 1, a, n, p, child =>
    if child < n then
      adjustLoopF fuel (a.set p (val a (pickChild a child))) n
        (pickChild a child) (2 * pickChild a child + 2)
    else some (a, p, child)

def adjustHeapF (a : List Int) (t n p : Nat) (v : Int) : Option (List Int) :=
  (adjustLoopF (n - (2 * p + 2) + 1) a n p (2 * p + 2)).bind fun r =>
    if r.2.2 = n then
      promoteHeapF (r.2.2 - 1 + 1) ((r.1).set r.2.1 (val r.1 (r.2.2 - 1))) t
        (r.2.2 - 1) v
    else promoteHeapF (r.2.1 + 1) r.1 t r.2.1 v

def pushHeapF (a : List Int) : Option (List Int) :=
  promoteHeapF (a.length - 1 + 1) a 0 (a.length - 1) (val a (a.length - 1))

def popHeapNF (a : List Int) (n : Nat) : Option (List Int) :=
  adjustHeapF (a.set (n - 1) (val a 0)) 0 (n - 1) 0 (val a (n - 1))

def popHeapF (a : List Int) : Option (List Int) := popHeapNF a a.length

def makeHeapLoopF : Nat → List Int → Nat → Nat → Option (List Int)
  | 0, _, _, _ => none
  | fuel + 1, a, n, k =>
    (adjustHeapF a (k - 1) n (k - 1) (val a (k - 1))).bind fun a1 =>
      if k - 1 = 0 then some a1 else makeHeapLoopF fuel a1 n (k - 1)

def makeHeapF (a : List Int) : Option (List Int) :=
  if 2 ≤ a.length then
    makeHeapLoopF ((a.length - 2) / 2 + 1) a a.length ((a.length - 2) / 2 + 1)
  else some a

def sortHeapLoopF : Nat → List Int → Nat → Option (List Int)
  | 0, _, _ => none
  | fuel + 1, a, n =>
    if 1 < n then (popHeapNF a n).bind fun b => sortHeapLoopF fuel b (n - 1)
    else some a

def sortHeapF (a : List Int) : Option (List Int) :=
  sortHeapLoopF (a.length + 1) a a.length

def removeHeapF (a : List Int) (heapSize position : Nat) : Option (List Int) :=
  adjustHeapF (a.set (heapSize - 1) (val a position)) 0 (heapSize - 1) position
    (val a (heapSize - 1))

def changeHeapF (a : List Int) (heapSize position : Nat) : Option (List Int) :=
  (removeHeapF a heapSize position).bind fun a1 =>
    promoteHeapF (heapSize - 1 + 1) a1 0 (heapSize - 1) (val a1 (heapSize - 1))

def isHeapUntilLoopF : Nat → List Int → Nat → Nat → Nat → Nat → Option Nat
  | 0, _, _, _, _, _ => none
  | fuel + 1, a, n, p, child, counter =>
    if child < n then
      if val a p < val a child then some child
      else isHeapUntilLoopF fuel a n (p + counter) (child + 1) (counter ^^^ 1)
    else some n

def isHeapUntilF (a : List Int) : Option Nat :=
  isHeapUntilLoopF (a.length - 1 + 1) a a.length 0 1 0

def isHeapF (a : List Int) : Option Bool :=
  (isHeapUntilF a).map fun r => decide (r = a.length)

/-! ### Basic lemmas about `val`, `List.set` and permutations -/

theorem val_set_self {a : List Int} {i : Nat} (h : i < a.length) (x : Int) :
    val (a.set i x) i = x := by
  simp [val, List.getD_eq_getElem?_getD, List.getElem?_set_eq_of_lt _ h]

theorem val_set_ne {a : List Int} {i j : Nat} (h : i ≠ j) (x : Int) :
    val (a.set i x) j = val a j := by
  simp [val, List.getD_eq_getElem?_getD, List.getElem?_set_ne h]

theorem set_val_self {a : List Int} {i : Nat} (h : i < a.length) :
    a.set i (val a i) = a := by
  apply List.ext_getElem (by simp)
  intro k hk1 hk2
  rcases eq_or_ne i k with rfl | hne
  · simp [val, List.getD_eq_getElem?_getD, List.getElem?_eq_getElem h]
  · simp [List.getElem_set_ne hne]

theorem val_eq_getElem {a : List Int} {i : Nat} (h : i < a.length) :
    val a i = a[i] := by
  simp [val, List.getD_eq_getElem?_getD, List.getElem?_eq_getElem h]

/-- Prepending the old value of slot `j` while overwriting slot `j` is a
permutation of prepending the new value. -/
theorem getD_cons_set_perm (l : List Int) (j : Nat) (x : Int) (h : j < l.length) :
    (val l j :: l.set j x).Perm (x :: l) := by
  induction l generalizing j with
  | nil => simp at h
  | cons c tl ih =>
    cases j with
    | zero =>
      simpa [val, List.getD] using List.Perm.swap x c tl
    | succ j' =>
      have h' : j' < tl.length := by simpa using h
      have e1 : (val (c :: tl) (j' + 1) :: (c :: tl).set (j' + 1) x)
          = val tl j' :: c :: tl.set j' x := by simp [val, List.getD_cons_succ]
      rw [e1]
      exact ((List.Perm.swap c (val tl j') _).trans ((ih j' h').cons c)).trans
        (List.Perm.swap x c tl)

theorem cons_set_perm_swap (l : List Int) (i : Nat) (x y : Int)
    (h : i < l.length) :
    (x :: l.set i y).Perm (y :: l.set i x) := by
  induction l generalizing i with
  | nil => simp at h
  | cons c tl ih =>
    cases i with
    | zero => simpa using List.Perm.swap y x tl
    | succ i' =>
      have h' : i' < tl.length := by simpa using h
      have e1 : (x :: (c :: tl).set (i' + 1) y) = x :: c :: tl.set i' y := by simp
      rw [e1]
      exact ((List.Perm.swap c x _).trans (((ih i' h').cons c)))|>.trans
        (List.Perm.swap y c _)

/-- Moving the value of slot `j` into slot `i` and then overwriting slot `j`
permutes like overwriting slot `i` directly. -/
theorem perm_set_set {a : List Int} {i j : Nat} (hi : i < a.length)
    (hj : j < a.length) (hij : i ≠ j) (x : Int) :
    ((a.set i (val a j)).set j x).Perm (a.set i x) := by
  induction a generalizing i j with
  | nil => simp at hi
  | cons c tl ih =>
    cases i with
    | zero =>
      cases j with
      | zero => exact absurd rfl hij
      | succ j' =>
        have h' : j' < tl.length := by simpa using hj
        simpa [val, List.getD_cons_succ] using getD_cons_set_perm tl j' x h'
    | succ i' =>
      cases j with
      | zero =>
        have : ((c :: tl).set (i' + 1) (val (c :: tl) 0)).set 0 x
            = x :: tl.set i' c := by simp [val, List.getD]
        rw [this]
        exact cons_set_perm_swap tl i' x c (by simpa using hi)
      | succ j' =>
        have hi' : i' < tl.length := by simpa using hi
        have hj' : j' < tl.length := by simpa using hj
        have hij' : i' ≠ j' := by omega
        simpa [val, List.getD_cons_succ] using (ih hi' hj' hij' ).cons c

/-! ### Lemmas about the subtree relation `isDesc` -/

theorem isDesc_refl (k : Nat) : isDesc k k = true := by
  unfold isDesc; simp

theorem isDesc_le {k c : Nat} (h : isDesc k c = true) : k ≤ c := by
  by_contra hlt
  unfold isDesc at h
  rw [if_pos (by omega)] at h
  simp at h
  omega

theorem isDesc_lt {k c : Nat} (h : isDesc k c = true) (hne : c ≠ k) : k < c :=
  lt_of_le_of_ne (isDesc_le h) fun e => hne e.symm

theorem isDesc_parent_of_ne {k c : Nat} (h : isDesc k c = true) (hne : c ≠ k) :
    isDesc k (parent c) = true := by
  have hk : k < c := isDesc_lt h hne
  unfold isDesc at h
  rw [if_neg (by omega)] at h
  exact h

theorem isDesc_of_parent {k c : Nat} (h : isDesc k (parent c) = true) (hc : 0 < c) :
    isDesc k c = true := by
  have hp : parent c < c := by simp only [parent]; omega
  have hk : k ≤ parent c := isDesc_le h
  unfold isDesc
  rw [if_neg (by omega)]
  exact h

theorem isDesc_trans {j k c : Nat} (hjk : isDesc j k = true)
    (hkc : isDesc k c = true) : isDesc j c = true := by
  induction c using Nat.strong_induction_on with
  | _ c ih =>
    rcases eq_or_ne c k with rfl | hne
    · exact hjk
    · have hk : k < c := isDesc_lt hkc hne
      have hp : parent c < c := by simp only [parent]; omega
      have := ih (parent c) hp (isDesc_parent_of_ne hkc hne)
      exact isDesc_of_parent this (by omega)

theorem isDesc_zero (c : Nat) : isDesc 0 c = true := by
  induction c using Nat.strong_induction_on with
  | _ c ih =>
    cases c with
    | zero => exact isDesc_refl 0
    | succ m =>
      have hp : parent (m + 1) < m + 1 := by simp only [parent]; omega
      exact isDesc_of_parent (ih _ hp) (by omega)

/-- If `g` is in the subtree of `k` and `c` is a child of `g`, then `c` is in
the subtree of `k`. -/
theorem isDesc_child {k g c : Nat} (h : isDesc k g = true) (hc : parent c = g)
    (hc0 : 0 < c) : isDesc k c = true :=
  isDesc_of_parent (hc ▸ h) hc0

theorem isDesc_parent_self {c : Nat} (hc : 0 < c) : isDesc (parent c) c = true :=
  isDesc_of_parent (isDesc_refl _) hc

/-- A child index determines its parent: `c ∈ {2g+1, 2g+2}` iff `parent c = g`
with `c > 0`. -/
theorem parent_child_left (g : Nat) : parent (2 * g + 1) = g := by
  simp only [parent]; omega

theorem parent_child_right (g : Nat) : parent (2 * g + 2) = g := by
  simp only [parent]; omega

theorem parent_lt {c : Nat} (hc : 0 < c) : parent c < c := by
  simp only [parent]; omega

theorem lt_of_parent_eq {g c : Nat} (hc : parent c = g) (hc0 : 0 < c) : g < c := by
  simp only [parent] at hc; omega

/-! ### Specification of `promoteHeap` (sift-up)

The vacancy is at `q` inside the region `[0, n)`, in the subtree rooted at
`t`.  The heap relation holds for every pair in that subtree not involving
`q`; children of `q` are bounded by `value` and (when `t < q`) by the value
at `q`'s parent.  After the call the whole subtree of `t` satisfies the heap
relation, indices off the ancestor chain `t..q` are untouched, and the
result is a permutation of writing `value` directly into slot `q`. -/

theorem promoteHeap_spec (v : Int) (q : Nat) :
    ∀ (a : List Int) (t n : Nat),
    n ≤ a.length → q < n → isDesc t q = true →
    (∀ c, t < c → c < n → isDesc t c = true → c ≠ q → parent c ≠ q →
        val a c ≤ val a (parent c)) →
    (∀ c, c < n → 0 < c → parent c = q → val a c ≤ v) →
    (∀ c, c < n → 0 < c → parent c = q → t < q → val a c ≤ val a (parent q)) →
    (promoteHeap a t q v).length = a.length ∧
    (∀ i, ¬(isDesc t i = true ∧ isDesc i q = true) →
        val (promoteHeap a t q v) i = val a i) ∧
    (promoteHeap a t q v).Perm (a.set q v) ∧
    (∀ c, t < c → c < n → isDesc t c = true →
        val (promoteHeap a t q v) c ≤ val (promoteHeap a t q v) (parent c)) := by
  induction q using Nat.strong_induction_on with
  | _ q ih =>
    intro a t n hn hq hdesc hP1 hP2 hP3
    unfold promoteHeap
    by_cases hguard : t < q ∧ val a (parent q) < v
    · rw [if_pos hguard]
      obtain ⟨htq, hv⟩ := hguard
      have hq0 : 0 < q := by omega
      have hq1lt : parent q < q := parent_lt hq0
      have hq1n : parent q < n := by omega
      have hdesc1 : isDesc t (parent q) = true :=
        isDesc_parent_of_ne hdesc (by omega)
      have hqlen : q < a.length := by omega
      -- facts about the updated array
      have hset_q : val (a.set q (val a (parent q))) q = val a (parent q) :=
        val_set_self hqlen _
      have hset_ne : ∀ i, i ≠ q → val (a.set q (val a (parent q))) i = val a i := by
        intro i hi
        exact val_set_ne (fun e => hi e.symm) _
      -- the (P1) fact transported to children of the new vacancy
      have hchild : ∀ c, c < n → 0 < c → parent c = parent q → c ≠ q →
          val a c ≤ val a (parent q) := by
        intro c hcn hc0 hpc hcq
        have hdc : isDesc t c := isDesc_child hdesc1 hpc hc0
        have htc : t < c := by
          have h1 := isDesc_le hdesc1
          have h2 := lt_of_parent_eq hpc hc0
          omega
        have := hP1 c htc hcn hdc hcq (by rw [hpc]; omega)
        rw [hpc] at this
        exact this
      have hP1' : ∀ c, t < c → c < n → isDesc t c = true → c ≠ parent q →
          parent c ≠ parent q →
          val (a.set q (val a (parent q))) c
            ≤ val (a.set q (val a (parent q))) (parent c) := by
        intro c htc hcn hdc hc1 hpc1
        rcases eq_or_ne c q with rfl | hcq
        · exact absurd rfl hpc1
        · rw [hset_ne c hcq]
          rcases eq_or_ne (parent c) q with hpq | hpq
          · rw [hpq, hset_q]
            exact hP3 c hcn (by omega) hpq htq
          · rw [hset_ne _ hpq]
            exact hP1 c htc hcn hdc hcq hpq
      have hP2' : ∀ c, c < n → 0 < c → parent c = parent q →
          val (a.set q (val a (parent q))) c ≤ v := by
        intro c hcn hc0 hpc
        rcases eq_or_ne c q with rfl | hcq
        · rw [hset_q]; exact le_of_lt hv
        · rw [hset_ne c hcq]
          exact le_of_lt (lt_of_le_of_lt (hchild c hcn hc0 hpc hcq) hv)
      have hP3' : ∀ c, c < n → 0 < c → parent c = parent q → t < parent q →
          val (a.set q (val a (parent q))) c
            ≤ val (a.set q (val a (parent q))) (parent (parent q)) := by
        intro c hcn hc0 hpc ht1
        have hq10 : 0 < parent q := by omega
        have hq2lt : parent (parent q) < parent q := parent_lt hq10
        have hne2 : parent (parent q) ≠ q := by omega
        rw [hset_ne _ hne2]
        have hrel : val a (parent q) ≤ val a (parent (parent q)) :=
          hP1 (parent q) ht1 hq1n hdesc1 (by omega) (by omega)
        rcases eq_or_ne c q with rfl | hcq
        · rw [hset_q]; exact hrel
        · rw [hset_ne c hcq]
          exact le_trans (hchild c hcn hc0 hpc hcq) hrel
      obtain ⟨hlen, hframe, hperm, hheap⟩ :=
        ih (parent q) hq1lt (a.set q (val a (parent q))) t n
          (by simpa using hn) hq1n hdesc1 hP1' hP2' hP3'
      refine ⟨by simpa using hlen, ?_, ?_, ?_⟩
      · intro i hi
        have hiq : i ≠ q := by
          rintro rfl
          exact hi ⟨hdesc, isDesc_refl i⟩
        have hi1 : ¬(isDesc t i = true ∧ isDesc i (parent q) = true) := by
          rintro ⟨h1, h2⟩
          exact hi ⟨h1, isDesc_trans h2 (isDesc_parent_self hq0)⟩
        rw [hframe i hi1, hset_ne i hiq]
      · exact hperm.trans (perm_set_set hqlen (by omega) (by omega) v)
      · exact hheap
    · rw [if_neg hguard]
      have hqlen : q < a.length := by omega
      refine ⟨by simp, ?_, List.Perm.refl _, ?_⟩
      · intro i hi
        have hiq : i ≠ q := by
          rintro rfl
          exact hi ⟨hdesc, isDesc_refl i⟩
        exact val_set_ne (fun e => hiq e.symm) v
      · intro c htc hcn hdc
        rcases eq_or_ne c q with rfl | hcq
        · have hpq : parent c ≠ c := by
            have := parent_lt (show 0 < c by omega)
            omega
          rw [val_set_self hqlen, val_set_ne (fun e => hpq e.symm)]
          by_contra hlt
          exact hguard ⟨htc, by omega⟩
        · rw [val_set_ne (fun e => hcq e.symm)]
          rcases eq_or_ne (parent c) q with hpq | hpq
          · rw [hpq, val_set_self hqlen]
            exact hP2 c hcn (by omega) hpq
          · rw [val_set_ne (fun e => hpq e.symm)]
            exact hP1 c htc hcn hdc hcq hpq

/-! ### Specification of the sift-down loop `adjustLoop` -/

theorem parent_eq_iff {h c : Nat} (hc : 0 < c) :
    parent c = h ↔ (c = 2 * h + 1 ∨ c = 2 * h + 2) := by
  simp only [parent]; omega

theorem pickChild_parent {a : List Int} {h child : Nat} (hch : child = 2 * h + 2) :
    parent (pickChild a child) = h := by
  simp only [pickChild]
  split
  · rw [hch]
    have : 2 * h + 2 - 1 = 2 * h + 1 := by omega
    rw [this, parent_child_left]
  · rw [hch, parent_child_right]

theorem pickChild_le (a : List Int) (child : Nat) : pickChild a child ≤ child := by
  simp only [pickChild]; split <;> omega

theorem pickChild_ge (a : List Int) (child : Nat) :
    child - 1 ≤ pickChild a child := by
  simp only [pickChild]; split <;> omega

/-- The chosen child is the larger of the two children of `h`. -/
theorem pickChild_max {a : List Int} {h child : Nat} (hch : child = 2 * h + 2)
    {c : Nat} (hc0 : 0 < c) (hpc : parent c = h) (hne : c ≠ pickChild a child) :
    val a c ≤ val a (pickChild a child) := by
  subst hch
  have e1 : 2 * h + 2 - 1 = 2 * h + 1 := by omega
  have hcases := (parent_eq_iff hc0).mp hpc
  unfold pickChild at hne ⊢
  rw [e1] at hne ⊢
  by_cases hlt : val a (2 * h + 2) < val a (2 * h + 1)
  · rw [if_pos hlt] at hne ⊢
    have hc : c = 2 * h + 2 := by omega
    rw [hc]
    exact le_of_lt hlt
  · rw [if_neg hlt] at hne ⊢
    have hc : c = 2 * h + 1 := by omega
    rw [hc]
    exact not_lt.mp hlt

/-- Conclusions of `adjustLoop` when the loop guard already fails. -/
theorem adjustLoop_exit {a : List Int} {n h child : Nat} (hge : ¬ child < n) :
    adjustLoop a n h child = (a, h, child) := by
  unfold adjustLoop
  rw [if_neg hge]

/-- Full specification of the sift-down loop.  Starting from vacancy `h` with
`child = 2h+2`, where every pair inside the subtree of `h` not having `h` as
parent satisfies the heap relation, the loop returns `(b, p2, c2)` with:
the exit condition, the final vacancy inside the subtree and the region,
frames off the vacancy chain, the permutation action, the heap relation off
the final vacancy, the values surrounding the final vacancy, monotonicity of
values in the subtree, and the provenance of the value filling `h`. -/
theorem adjustLoop_spec :
    ∀ (fuel : Nat) (a : List Int) (n h child : Nat),
    n - child ≤ fuel → child = 2 * h + 2 → h < n → n ≤ a.length →
    (∀ c, h < c → c < n → isDesc h c = true → parent c ≠ h →
        val a c ≤ val a (parent c)) →
    ∀ b p2 c2, adjustLoop a n h child = (b, p2, c2) →
    c2 = 2 * p2 + 2 ∧ n ≤ c2 ∧ isDesc h p2 = true ∧ p2 < n ∧
    b.length = a.length ∧
    (∀ i, ¬(isDesc h i = true ∧ isDesc i p2 = true) → val b i = val a i) ∧
    (∀ x, (b.set p2 x).Perm (a.set h x)) ∧
    (∀ c, h < c → c < n → isDesc h c = true → c ≠ p2 → parent c ≠ p2 →
        val b c ≤ val b (parent c)) ∧
    (h ≠ p2 → val b (parent p2) = val a p2) ∧
    (val b p2 = val a p2) ∧
    (∀ c, h < c → c < n → isDesc h c = true → val b c ≤ val a c) ∧
    (h ≠ p2 → ∃ d, d < n ∧ 0 < d ∧ parent d = h ∧ val b h = val a d) := by
  intro fuel
  induction fuel with
  | zero =>
    intro a n h child hfuel hch hn hlen hH1 b p2 c2 heq
    have hge : ¬ child < n := by omega
    rw [adjustLoop_exit hge] at heq
    injection heq with h1 hrest
    injection hrest with h2 h3
    subst h1 h2 h3
    exact ⟨hch, by omega, isDesc_refl h, hn, rfl, fun i _ => rfl,
      fun x => List.Perm.refl _,
      fun c hc1 hc2 hc3 hc4 hc5 => hH1 c hc1 hc2 hc3 hc5,
      fun hne => absurd rfl hne, rfl, fun c _ _ _ => le_refl _,
      fun hne => absurd rfl hne⟩
  | succ fuel ih =>
    intro a n h child hfuel hch hn hlen hH1 b p2 c2 heq
    by_cases hlt : child < n
    case neg =>
      rw [adjustLoop_exit hlt] at heq
      injection heq with h1 hrest
      injection hrest with h2 h3
      subst h1 h2 h3
      exact ⟨hch, by omega, isDesc_refl h, hn, rfl, fun i _ => rfl,
        fun x => List.Perm.refl _,
        fun c hc1 hc2 hc3 hc4 hc5 => hH1 c hc1 hc2 hc3 hc5,
        fun hne => absurd rfl hne, rfl, fun c _ _ _ => le_refl _,
        fun hne => absurd rfl hne⟩
    case pos =>
      have hstep : adjustLoop a n h child
          = adjustLoop (a.set h (val a (pickChild a child))) n
            (pickChild a child) (2 * pickChild a child + 2) := by
        conv => lhs; unfold adjustLoop
        rw [if_pos hlt]
      -- basic facts about the chosen child k
      have hkp : parent (pickChild a child) = h := pickChild_parent hch
      have hk0 : 0 < pickChild a child := by
        have := pickChild_ge a child; omega
      have hkn : pickChild a child < n := by
        have := pickChild_le a child; omega
      have hhk : h < pickChild a child := lt_of_parent_eq hkp hk0
      have hhlen : h < a.length := by omega
      have hklen : pickChild a child < a.length := by omega
      have hdesc_hk : isDesc h (pickChild a child) = true :=
        isDesc_child (isDesc_refl h) hkp hk0
      have hnotk_h : ¬ isDesc (pickChild a child) h = true := by
        intro hcon
        have := isDesc_le hcon; omega
      -- values in the updated array
      have hval_h : val (a.set h (val a (pickChild a child))) h
          = val a (pickChild a child) := val_set_self hhlen _
      have hval_ne : ∀ i, i ≠ h →
          val (a.set h (val a (pickChild a child))) i = val a i := by
        intro i hi
        exact val_set_ne (fun e => hi e.symm) _
      -- heap hypothesis for the recursive call
      have hH1' : ∀ c, pickChild a child < c → c < n → isDesc (pickChild a child) c = true →
          parent c ≠ pickChild a child →
          val (a.set h (val a (pickChild a child))) c
            ≤ val (a.set h (val a (pickChild a child))) (parent c) := by
        intro c hc1 hc2 hc3 hc4
        have hch1 : c ≠ h := by omega
        have hpch : parent c ≠ h := by
          intro e
          have := lt_of_parent_eq e (by omega)
          -- parent c = h contradicts parent c being in the subtree of k
          have h2 : isDesc (pickChild a child) (parent c) = true :=
            isDesc_parent_of_ne hc3 (by omega)
          have := isDesc_le h2
          omega
        rw [hval_ne c hch1, hval_ne _ hpch]
        exact hH1 c (by omega) hc2 (isDesc_trans hdesc_hk hc3) hpch
      have hfuel' : n - (2 * pickChild a child + 2) ≤ fuel := by
        have := pickChild_ge a child
        omega
      rw [hstep] at heq
      obtain ⟨hE1, hE2, hE3, hE4, hE5, hE6, hE7, hE8, hE9, hE10, hE11, hE12⟩ :=
        ih (a.set h (val a (pickChild a child))) n (pickChild a child)
          (2 * pickChild a child + 2) hfuel' rfl hkn (by simpa using hlen)
          hH1' b p2 c2 heq
      -- k is an ancestor of the final vacancy, and h is below nothing
      have hdesc_hp2 : isDesc h p2 = true := isDesc_trans hdesc_hk hE3
      have hk_le_p2 : pickChild a child ≤ p2 := isDesc_le hE3
      have hbh : val b h = val a (pickChild a child) := by
        rw [hE6 h (by simp [hnotk_h]), hval_h]
      have hp2h : p2 ≠ h := by omega
      -- value monotone fact for the chosen child slot
      have hbk : val b (pickChild a child) ≤ val a (pickChild a child) := by
        rcases eq_or_ne (pickChild a child) p2 with hkp2 | hkp2
        · rw [hkp2, hE10, hval_ne p2 hp2h]
        · obtain ⟨d, hd1, hd2, hd3, hd4⟩ := hE12 hkp2
          have hdh : d ≠ h := by
            have := lt_of_parent_eq hd3 hd2; omega
          rw [hd4, hval_ne d hdh]
          have hdesc_hd : isDesc h d = true := isDesc_child hdesc_hk hd3 hd2
          have := hH1 d (by have := lt_of_parent_eq hd3 hd2; omega) hd1 hdesc_hd
            (by rw [hd3]; omega)
          rw [hd3] at this
          exact this
      refine ⟨hE1, hE2, hdesc_hp2, hE4, by simpa using hE5, ?_, ?_, ?_, ?_, ?_, ?_, ?_⟩
      · -- frame
        intro i hi
        have hih : i ≠ h := by
          rintro rfl
          exact hi ⟨isDesc_refl i, hdesc_hp2⟩
        have : ¬(isDesc (pickChild a child) i = true ∧ isDesc i p2 = true) := by
          rintro ⟨h1, h2⟩
          exact hi ⟨isDesc_trans hdesc_hk h1, h2⟩
        rw [hE6 i this, hval_ne i hih]
      · -- permutation
        intro x
        exact (hE7 x).trans (perm_set_set hhlen hklen (by omega) x)
      · -- heap relation off the final vacancy
        intro c hc1 hc2 hc3 hc4 hc5
        by_cases hkc : isDesc (pickChild a child) c = true
        · rcases eq_or_ne c (pickChild a child) with rfl | hck
          · rw [hkp, hbh]
            exact hbk
          · exact hE8 c (lt_of_le_of_ne (isDesc_le hkc) (Ne.symm hck)) hc2 hkc hc4 hc5
        · have hcne : c ≠ h := by omega
          have hpk : ¬ isDesc (pickChild a child) (parent c) = true := by
            intro hcon
            exact hkc (isDesc_child hcon rfl (by omega))
          have hfc : val b c = val a c := by
            rw [hE6 c (by simp [hkc]), hval_ne c hcne]
          rcases eq_or_ne (parent c) h with hph | hph
          · rw [hfc, hE6 (parent c) (by simp [hpk]), hph, hval_h]
            exact pickChild_max hch (by omega) hph
              (fun e => hkc (by rw [e]; exact isDesc_refl _))
          · rw [hfc, hE6 (parent c) (by simp [hpk]), hval_ne _ hph]
            exact hH1 c hc1 hc2 hc3 hph
      · -- value at the parent of the final vacancy
        intro _
        rcases eq_or_ne (pickChild a child) p2 with hkp2 | hkp2
        · rw [← hkp2, hkp, hbh, hkp2]
        · rw [hE9 hkp2, hval_ne p2 hp2h]
      · -- value at the final vacancy
        rw [hE10, hval_ne p2 hp2h]
      · -- monotone values in the subtree
        intro c hc1 hc2 hc3
        by_cases hkc : isDesc (pickChild a child) c = true
        · rcases eq_or_ne c (pickChild a child) with rfl | hck
          · exact hbk
          · have := hE11 c (lt_of_le_of_ne (isDesc_le hkc) (Ne.symm hck)) hc2 hkc
            rw [hval_ne c (by omega)] at this
            exact this
        · rw [hE6 c (by simp [hkc]), hval_ne c (by omega)]
      · -- provenance of the value now at h
        intro _
        exact ⟨pickChild a child, hkn, hk0, hkp, hbh⟩

/-! ### Specification of `adjustHeap` (sift-down) -/

theorem adjustHeap_eq (a : List Int) (t n p : Nat) (v : Int) :
    adjustHeap a t n p v =
    if (adjustLoop a n p (2 * p + 2)).2.2 = n then
      promoteHeap (((adjustLoop a n p (2 * p + 2)).1).set
          (adjustLoop a n p (2 * p + 2)).2.1
          (val (adjustLoop a n p (2 * p + 2)).1
            ((adjustLoop a n p (2 * p + 2)).2.2 - 1))) t
        ((adjustLoop a n p (2 * p + 2)).2.2 - 1) v
    else
      promoteHeap (adjustLoop a n p (2 * p + 2)).1 t
        (adjustLoop a n p (2 * p + 2)).2.1 v := rfl

/-- When the vacancy is already at or below the leaf frontier
(`n < 2p + 2`), the sift-down loop and the fixup do nothing and
`adjustHeap` is just a sift-up of `value` from `position`. -/
theorem adjustHeap_leaf {a : List Int} {t n p : Nat} (v : Int)
    (h : n < 2 * p + 2) : adjustHeap a t n p v = promoteHeap a t p v := by
  rw [adjustHeap_eq, adjustLoop_exit (by omega)]
  simp only []
  rw [if_neg (by omega)]

/-- Full specification of `adjustHeap`: the vacancy is at `p` inside the
region `[0, n)`, in the subtree rooted at `t`; the subtree of `p` is a heap
apart from pairs having `p` as parent (hA1); children of `p` are bounded by
the value at `p`'s parent when `t < p` (hA2); the rest of the subtree of `t`
satisfies the heap relation (hA3).  Afterwards the whole subtree of `t`
satisfies the heap relation, indices at or beyond `n` and indices outside
the subtree of `t` are untouched, and the result permutes like writing
`value` directly into slot `p`. -/
theorem adjustHeap_spec {a : List Int} {t n p : Nat} (v : Int)
    (hn : n ≤ a.length) (hp : p < n) (hdesc : isDesc t p = true)
    (hA1 : ∀ c, p < c → c < n → isDesc p c = true → parent c ≠ p →
        val a c ≤ val a (parent c))
    (hA2 : ∀ c, c < n → 0 < c → parent c = p → t < p → val a c ≤ val a (parent p))
    (hA3 : ∀ c, t < c → c < n → isDesc t c = true → ¬ isDesc p c = true →
        val a c ≤ val a (parent c)) :
    (adjustHeap a t n p v).length = a.length ∧
    (∀ i, n ≤ i → val (adjustHeap a t n p v) i = val a i) ∧
    (∀ i, ¬ isDesc t i = true → val (adjustHeap a t n p v) i = val a i) ∧
    (adjustHeap a t n p v).Perm (a.set p v) ∧
    (∀ c, t < c → c < n → isDesc t c = true →
        val (adjustHeap a t n p v) c ≤ val (adjustHeap a t n p v) (parent c)) := by
  rcases hr : adjustLoop a n p (2 * p + 2) with ⟨b1, p2, c2⟩
  obtain ⟨hL1, hL2, hL3, hL4, hL5, hL6, hL7, hL8, hL9, hL10, hL11, hL12⟩ :=
    adjustLoop_spec n a n p (2 * p + 2) (by omega) rfl hp hn hA1 b1 p2 c2 hr
  have hp2len : p2 < a.length := by omega
  have hdesc_tp2 : isDesc t p2 = true := isDesc_trans hdesc hL3
  have hp_le_p2 : p ≤ p2 := isDesc_le hL3
  -- the heap relation for `b1` at `p` itself, via the provenance fact
  have hrel_p : p ≠ p2 → t < p → val b1 p ≤ val b1 (parent p) := by
    intro hne htp
    obtain ⟨d, hd1, hd2, hd3, hd4⟩ := hL12 hne
    have hpp : ¬ isDesc p (parent p) = true := by
      intro hcon
      have h1 := isDesc_le hcon
      have h2 := parent_lt (show 0 < p by omega)
      omega
    rw [hd4, hL6 (parent p) (by simp [hpp])]
    exact hA2 d hd1 hd2 hd3 htp
  rw [adjustHeap_eq, hr]
  simp only []
  by_cases hfix : c2 = n
  · rw [if_pos hfix]
    -- the dangling left child case: vacancy moves to n - 1 = 2*p2 + 1
    have hq : c2 - 1 = 2 * p2 + 1 := by omega
    have hqn : c2 - 1 < n := by omega
    have hq0 : 0 < c2 - 1 := by omega
    have hqp2 : parent (c2 - 1) = p2 := by rw [hq, parent_child_left]
    have hp2q : p2 ≠ c2 - 1 := by omega
    have hdesc_tq : isDesc t (c2 - 1) = true :=
      isDesc_child hdesc_tp2 hqp2 hq0
    have hdesc_pq : isDesc p (c2 - 1) = true := isDesc_child hL3 hqp2 hq0
    have hbq : val b1 (c2 - 1) = val a (c2 - 1) := by
      refine hL6 _ ?_
      rintro ⟨h1, h2⟩
      have := isDesc_le h2
      omega
    -- values in the fixed-up array
    have hval2_p2 : val (b1.set p2 (val b1 (c2 - 1))) p2 = val b1 (c2 - 1) :=
      val_set_self (by omega) _
    have hval2_ne : ∀ i, i ≠ p2 → val (b1.set p2 (val b1 (c2 - 1))) i = val b1 i := by
      intro i hi
      exact val_set_ne (fun e => hi e.symm) _
    have hP1 : ∀ c, t < c → c < n → isDesc t c = true → c ≠ c2 - 1 →
        parent c ≠ c2 - 1 →
        val (b1.set p2 (val b1 (c2 - 1))) c
          ≤ val (b1.set p2 (val b1 (c2 - 1))) (parent c) := by
      intro c htc hcn hdc hcq hpcq
      by_cases hpc : isDesc p c = true
      · by_cases hcp2 : c = p2
        · -- the filled former vacancy against its own parent
          have hp20 : 0 < p2 := by omega
          have hppp2 : parent p2 ≠ p2 := Nat.ne_of_lt (parent_lt hp20)
          rw [hcp2, hval2_p2, hval2_ne _ hppp2, hbq]
          by_cases hpp2 : p = p2
          · have hppdesc : ¬ isDesc p (parent p2) = true := by
              intro hcon
              have h1 := isDesc_le hcon
              have h2 := parent_lt hp20
              omega
            rw [hL6 (parent p2) (by simp [hppdesc])]
            have := hA2 (c2 - 1) hqn hq0 (by omega) (by omega)
            rw [hpp2] at this
            exact this
          · rw [hL9 hpp2]
            have := hA1 (c2 - 1) (by omega) hqn hdesc_pq (by omega)
            rw [hqp2] at this
            exact this
        · -- inside the subtree of p, away from both vacancies
          have hpcp2 : parent c ≠ p2 := by
            intro e
            rcases (parent_eq_iff (show 0 < c by omega)).mp e with h1 | h2
            · exact hcq (by omega)
            · omega
          rw [hval2_ne c hcp2, hval2_ne _ hpcp2]
          by_cases hcp : c = p
          · rw [hcp]
            exact hrel_p (by omega) (by omega)
          · exact hL8 c (lt_of_le_of_ne (isDesc_le hpc) (Ne.symm hcp)) hcn hpc
              hcp2 hpcp2
      · -- outside the subtree of p: untouched by loop and fixup
        have hppc : ¬ isDesc p (parent c) = true := by
          intro hcon
          exact hpc (isDesc_child hcon rfl (by omega))
        have hcp2 : c ≠ p2 := by
          rintro rfl
          exact hpc hL3
        have hpcp2 : parent c ≠ p2 := by
          rintro e
          exact hpc (isDesc_child (e ▸ hL3) rfl (by omega))
        rw [hval2_ne c hcp2, hval2_ne _ hpcp2,
          hL6 c (by simp [hpc]), hL6 (parent c) (by simp [hppc])]
        exact hA3 c htc hcn hdc hpc
    obtain ⟨hQlen, hQframe, hQperm, hQheap⟩ :=
      promoteHeap_spec v (c2 - 1) (b1.set p2 (val b1 (c2 - 1))) t n
        (by rw [List.length_set]; omega) hqn hdesc_tq hP1
        (by intro c hcn hc0 hpc
            have := lt_of_parent_eq hpc hc0
            omega)
        (by intro c hcn hc0 hpc _
            have := lt_of_parent_eq hpc hc0
            omega)
    refine ⟨?_, ?_, ?_, ?_, hQheap⟩
    · rw [hQlen, List.length_set, hL5]
    · intro i hi
      have h1 : ¬(isDesc t i = true ∧ isDesc i (c2 - 1) = true) := by
        rintro ⟨_, h2⟩
        have := isDesc_le h2
        omega
      rw [hQframe i h1, hval2_ne i (by omega),
        hL6 i (by rintro ⟨_, h2⟩; have := isDesc_le h2; omega)]
    · intro i hi
      have h1 : ¬(isDesc t i = true ∧ isDesc i (c2 - 1) = true) := by
        rintro ⟨h2, _⟩
        exact hi h2
      have hip2 : i ≠ p2 := by
        rintro rfl
        exact hi hdesc_tp2
      rw [hQframe i h1, hval2_ne i hip2,
        hL6 i (by rintro ⟨h2, _⟩; exact hi (isDesc_trans hdesc h2))]
    · refine hQperm.trans (List.Perm.trans ?_ (hL7 v))
      exact perm_set_set (by omega) (by omega) hp2q v
  · rw [if_neg hfix]
    -- the loop stopped strictly past the region: the vacancy is a leaf
    have hchild : n < 2 * p2 + 2 := by omega
    have hP1 : ∀ c, t < c → c < n → isDesc t c = true → c ≠ p2 →
        parent c ≠ p2 → val b1 c ≤ val b1 (parent c) := by
      intro c htc hcn hdc hcp2 hpcp2
      by_cases hpc : isDesc p c = true
      · by_cases hcp : c = p
        · rw [hcp]
          exact hrel_p (by omega) (by omega)
        · exact hL8 c (lt_of_le_of_ne (isDesc_le hpc) (Ne.symm hcp)) hcn hpc hcp2 hpcp2
      · have hppc : ¬ isDesc p (parent c) = true := by
          intro hcon
          exact hpc (isDesc_child hcon rfl (by omega))
        rw [hL6 c (by simp [hpc]), hL6 (parent c) (by simp [hppc])]
        exact hA3 c htc hcn hdc hpc
    obtain ⟨hQlen, hQframe, hQperm, hQheap⟩ :=
      promoteHeap_spec v p2 b1 t n (by omega) hL4 hdesc_tp2 hP1
        (by intro c hcn hc0 hpc
            have := (parent_eq_iff hc0).mp hpc
            omega)
        (by intro c hcn hc0 hpc _
            have := (parent_eq_iff hc0).mp hpc
            omega)
    refine ⟨?_, ?_, ?_, ?_, hQheap⟩
    · rw [hQlen, hL5]
    · intro i hi
      have h1 : ¬(isDesc t i = true ∧ isDesc i p2 = true) := by
        rintro ⟨_, h2⟩
        have := isDesc_le h2
        omega
      rw [hQframe i h1,
        hL6 i (by rintro ⟨_, h2⟩; have := isDesc_le h2; omega)]
    · intro i hi
      have h1 : ¬(isDesc t i = true ∧ isDesc i p2 = true) := by
        rintro ⟨h2, _⟩
        exact hi h2
      rw [hQframe i h1,
        hL6 i (by rintro ⟨h2, _⟩; exact hi (isDesc_trans hdesc h2))]
    · exact hQperm.trans (hL7 v)

/-! ### Unfolding lemmas for the loops -/

theorem promoteHeap_step {a : List Int} {t q : Nat} {v : Int}
    (h : t < q ∧ val a (parent q) < v) :
    promoteHeap a t q v
      = promoteHeap (a.set q (val a (parent q))) t (parent q) v := by
  conv => lhs; unfold promoteHeap
  rw [if_pos h]

theorem promoteHeap_stop {a : List Int} {t q : Nat} {v : Int}
    (h : ¬(t < q ∧ val a (parent q) < v)) :
    promoteHeap a t q v = a.set q v := by
  conv => lhs; unfold promoteHeap
  rw [if_neg h]

theorem adjustLoop_step {a : List Int} {n p child : Nat} (h : child < n) :
    adjustLoop a n p child
      = adjustLoop (a.set p (val a (pickChild a child))) n
        (pickChild a child) (2 * pickChild a child + 2) := by
  conv => lhs; unfold adjustLoop
  rw [if_pos h]

theorem makeHeapLoop_stop {a : List Int} {n k : Nat} (h : k - 1 = 0) :
    makeHeapLoop a n k = adjustHeap a (k - 1) n (k - 1) (val a (k - 1)) := by
  conv => lhs; unfold makeHeapLoop
  rw [if_pos h]

theorem makeHeapLoop_step {a : List Int} {n k : Nat} (h : ¬ k - 1 = 0) :
    makeHeapLoop a n k
      = makeHeapLoop (adjustHeap a (k - 1) n (k - 1) (val a (k - 1))) n (k - 1) := by
  conv => lhs; unfold makeHeapLoop
  rw [if_neg h]

theorem sortHeapLoop_stop {a : List Int} {n : Nat} (h : ¬ 1 < n) :
    sortHeapLoop a n = a := by
  conv => lhs; unfold sortHeapLoop
  rw [if_neg h]

theorem sortHeapLoop_step {a : List Int} {n : Nat} (h : 1 < n) :
    sortHeapLoop a n = sortHeapLoop (popHeapN a n) (n - 1) := by
  conv => lhs; unfold sortHeapLoop
  rw [if_pos h]

theorem isHeapUntilLoop_exit {a : List Int} {n p child counter : Nat}
    (h : ¬ child < n) : isHeapUntilLoop a n p child counter = n := by
  conv => lhs; unfold isHeapUntilLoop
  rw [if_neg h]

theorem isHeapUntilLoop_found {a : List Int} {n p child counter : Nat}
    (h : child < n) (hv : val a p < val a child) :
    isHeapUntilLoop a n p child counter = child := by
  conv => lhs; unfold isHeapUntilLoop
  rw [if_pos h, if_pos hv]

theorem isHeapUntilLoop_next {a : List Int} {n p child counter : Nat}
    (h : child < n) (hv : ¬ val a p < val a child) :
    isHeapUntilLoop a n p child counter
      = isHeapUntilLoop a n (p + counter) (child + 1) (counter ^^^ 1) := by
  conv => lhs; unfold isHeapUntilLoop
  rw [if_pos h, if_neg hv]

/-! ### The fuel-indexed variants compute the loops -/

theorem promoteHeapF_eq :
    ∀ (fuel : Nat) (a : List Int) (t q : Nat) (v : Int), q < fuel →
    promoteHeapF fuel a t q v = some (promoteHeap a t q v) := by
  intro fuel
  induction fuel with
  | zero => intro a t q v h; omega
  | succ fuel ih =>
    intro a t q v h
    simp only [promoteHeapF]
    by_cases hg : t < q ∧ val a (parent q) < v
    · rw [if_pos hg, promoteHeap_step hg]
      have hq : parent q < fuel := by
        have := parent_lt (show 0 < q by omega)
        omega
      exact ih _ t (parent q) v hq
    · rw [if_neg hg, promoteHeap_stop hg]

theorem adjustLoopF_eq :
    ∀ (fuel : Nat) (a : List Int) (n p child : Nat), n - child < fuel →
    adjustLoopF fuel a n p child = some (adjustLoop a n p child) := by
  intro fuel
  induction fuel with
  | zero => intro a n p child h; omega
  | succ fuel ih =>
    intro a n p child h
    simp only [adjustLoopF]
    by_cases hlt : child < n
    · rw [if_pos hlt, adjustLoop_step hlt]
      have hk := pickChild_ge a child
      exact ih _ n (pickChild a child) (2 * pickChild a child + 2) (by omega)
    · rw [if_neg hlt, adjustLoop_exit hlt]

theorem adjustHeapF_eq (a : List Int) (t n p : Nat) (v : Int) :
    adjustHeapF a t n p v = some (adjustHeap a t n p v) := by
  unfold adjustHeapF
  rw [adjustLoopF_eq _ a n p (2 * p + 2) (by omega)]
  rw [Option.some_bind]
  rw [adjustHeap_eq]
  by_cases hfix : (adjustLoop a n p (2 * p + 2)).2.2 = n
  · rw [if_pos hfix, if_pos hfix, promoteHeapF_eq _ _ _ _ _ (by omega)]
  · rw [if_neg hfix, if_neg hfix, promoteHeapF_eq _ _ _ _ _ (by omega)]

theorem pushHeapF_eq (a : List Int) : pushHeapF a = some (pushHeap a) :=
  promoteHeapF_eq _ a 0 (a.length - 1) (val a (a.length - 1)) (by omega)

theorem popHeapNF_eq (a : List Int) (n : Nat) :
    popHeapNF a n = some (popHeapN a n) := adjustHeapF_eq _ 0 (n - 1) 0 _

theorem popHeapF_eq (a : List Int) : popHeapF a = some (popHeap a) :=
  popHeapNF_eq a a.length

theorem removeHeapF_eq (a : List Int) (n p : Nat) :
    removeHeapF a n p = some (removeHeap a n p) :=
  adjustHeapF_eq _ 0 (n - 1) p _

theorem changeHeapF_eq (a : List Int) (n p : Nat) :
    changeHeapF a n p = some (changeHeap a n p) := by
  unfold changeHeapF changeHeap
  rw [removeHeapF_eq, Option.some_bind,
    promoteHeapF_eq _ _ _ _ _ (by omega)]

theorem makeHeapLoopF_eq :
    ∀ (fuel : Nat) (a : List Int) (n k : Nat), 0 < k → k ≤ fuel →
    makeHeapLoopF fuel a n k = some (makeHeapLoop a n k) := by
  intro fuel
  induction fuel with
  | zero => intro a n k h1 h2; omega
  | succ fuel ih =>
    intro a n k h1 h2
    simp only [makeHeapLoopF]
    rw [adjustHeapF_eq, Option.some_bind]
    by_cases hk : k - 1 = 0
    · rw [if_pos hk, makeHeapLoop_stop hk]
    · rw [if_neg hk, makeHeapLoop_step hk]
      exact ih _ n (k - 1) (by omega) (by omega)

theorem makeHeapF_eq (a : List Int) : makeHeapF a = some (makeHeap a) := by
  unfold makeHeapF makeHeap
  by_cases h : 2 ≤ a.length
  · rw [if_pos h, if_pos h, makeHeapLoopF_eq _ a a.length _ (by omega) (le_refl _)]
  · rw [if_neg h, if_neg h]

theorem sortHeapLoopF_eq :
    ∀ (fuel : Nat) (a : List Int) (n : Nat), n < fuel →
    sortHeapLoopF fuel a n = some (sortHeapLoop a n) := by
  intro fuel
  induction fuel with
  | zero => intro a n h; omega
  | succ fuel ih =>
    intro a n h
    simp only [sortHeapLoopF]
    by_cases hn : 1 < n
    · rw [if_pos hn, popHeapNF_eq, Option.some_bind, sortHeapLoop_step hn]
      exact ih _ (n - 1) (by omega)
    · rw [if_neg hn, sortHeapLoop_stop hn]

theorem sortHeapF_eq (a : List Int) : sortHeapF a = some (sortHeap a) :=
  sortHeapLoopF_eq _ a a.length (by omega)

theorem isHeapUntilLoopF_eq :
    ∀ (fuel : Nat) (a : List Int) (n p child counter : Nat), n - child < fuel →
    isHeapUntilLoopF fuel a n p child counter
      = some (isHeapUntilLoop a n p child counter) := by
  intro fuel
  induction fuel with
  | zero => intro a n p child counter h; omega
  | succ fuel ih =>
    intro a n p child counter h
    simp only [isHeapUntilLoopF]
    by_cases hlt : child < n
    · by_cases hv : val a p < val a child
      · rw [if_pos hlt, if_pos hv, isHeapUntilLoop_found hlt hv]
      · rw [if_pos hlt, if_neg hv, isHeapUntilLoop_next hlt hv]
        exact ih a n (p + counter) (child + 1) (counter ^^^ 1) (by omega)
    · rw [if_neg hlt, isHeapUntilLoop_exit hlt]

theorem isHeapUntilF_eq (a : List Int) : isHeapUntilF a = some (isHeap_until a) :=
  isHeapUntilLoopF_eq _ a a.length 0 1 0 (by omega)

theorem isHeapF_eq (a : List Int) : isHeapF a = some (isHeap a) := by
  unfold isHeapF isHeap
  rw [isHeapUntilF_eq, Option.map_some']

/-! ### Region and maximum lemmas -/

/-- In a heap the root holds a maximum of the active region. -/
theorem heap_max {a : List Int} {n : Nat} (hheap : isHeapProp a n) :
    ∀ i, i < n → val a i ≤ val a 0 := by
  intro i
  induction i using Nat.strong_induction_on with
  | _ i ih =>
    intro hin
    rcases Nat.eq_zero_or_pos i with rfl | h
    · exact le_refl _
    · exact le_trans (hheap i hin h)
        (ih (parent i) (parent_lt h) (lt_trans (parent_lt h) hin))

theorem val_mem_take {a : List Int} {i n : Nat} (hi : i < n) (hlen : i < a.length) :
    val a i ∈ a.take n := by
  have h1 : i < (a.take n).length := by simp; omega
  have h2 : (a.take n)[i] = a[i] := List.getElem_take a
  rw [val_eq_getElem hlen, ← h2]
  exact List.getElem_mem h1

theorem mem_take_exists_val {a : List Int} {n : Nat} {x : Int}
    (hx : x ∈ a.take n) : ∃ i, i < n ∧ i < a.length ∧ x = val a i := by
  obtain ⟨i, hi, he⟩ := List.getElem_of_mem hx
  have h1 : i < n := by simp at hi; omega
  have h2 : i < a.length := by simp at hi; omega
  refine ⟨i, h1, h2, ?_⟩
  rw [val_eq_getElem h2, ← he, List.getElem_take]

theorem drop_eq_of_frame {a b : List Int} {n : Nat} (hlen : b.length = a.length)
    (hframe : ∀ i, n ≤ i → val b i = val a i) : b.drop n = a.drop n := by
  apply List.ext_getElem (by simp [hlen])
  intro k hk1 hk2
  have h1 : n + k < b.length := by simp at hk1; omega
  have h2 : n + k < a.length := by simp at hk2; omega
  rw [List.getElem_drop, List.getElem_drop, ← val_eq_getElem h1, ← val_eq_getElem h2]
  exact hframe (n + k) (by omega)

/-- A permutation that fixes every index at or beyond `n` restricts to a
permutation of the first `n` entries. -/
theorem take_perm_of_frame {a b : List Int} {n : Nat} (hperm : b.Perm a)
    (hlen : b.length = a.length) (hframe : ∀ i, n ≤ i → val b i = val a i) :
    (b.take n).Perm (a.take n) := by
  have hdrop : b.drop n = a.drop n := drop_eq_of_frame hlen hframe
  have h1 : (b.take n ++ b.drop n).Perm (a.take n ++ a.drop n) := by
    rw [List.take_append_drop, List.take_append_drop]
    exact hperm
  rw [hdrop] at h1
  exact (List.perm_append_right_iff _).mp h1

/-! ### Specifications of the public operations -/

/-- Sifting a value up from the trailing slot `n-1` of a region whose first
`n-1` slots form a heap yields a heap over the whole region: the common core
of `pushHeap` and the second phase of `changeHeap`. -/
theorem promote_push {a : List Int} {n : Nat} (v : Int) (h1 : 1 ≤ n)
    (hn : n ≤ a.length) (hheap : isHeapProp a (n - 1)) :
    (promoteHeap a 0 (n - 1) v).length = a.length ∧
    (promoteHeap a 0 (n - 1) v).Perm (a.set (n - 1) v) ∧
    isHeapProp (promoteHeap a 0 (n - 1) v) n ∧
    (∀ i, n ≤ i → val (promoteHeap a 0 (n - 1) v) i = val a i) := by
  obtain ⟨hlen, hframe, hperm, hheap2⟩ :=
    promoteHeap_spec v (n - 1) a 0 n hn (by omega) (isDesc_zero _)
      (by intro c hc0 hcn hdc hcq hpcq
          exact hheap c (by omega) hc0)
      (by intro c hcn hc0 hpc
          have := lt_of_parent_eq hpc hc0
          simp only [parent] at hpc
          omega)
      (by intro c hcn hc0 hpc hlt
          have := lt_of_parent_eq hpc hc0
          simp only [parent] at hpc
          omega)
  refine ⟨hlen, hperm, ?_, ?_⟩
  · intro c hcn hc0
    exact hheap2 c hc0 hcn (isDesc_zero c)
  · intro i hi
    refine hframe i ?_
    rintro ⟨_, h2⟩
    have := isDesc_le h2
    omega

/-- `pushHeap` specification: if the first `n-1` slots satisfy the heap
invariant and slot `n-1` holds the new value, the result is a heap over the
whole list with the same multiset of elements. -/
theorem pushHeap_spec {a : List Int} (h1 : 1 ≤ a.length)
    (hheap : isHeapProp a (a.length - 1)) :
    (pushHeap a).length = a.length ∧ (pushHeap a).Perm a ∧
    isHeapProp (pushHeap a) a.length := by
  obtain ⟨hlen, hperm, hheap2, hframe⟩ :=
    promote_push (val a (a.length - 1)) h1 (le_refl _) hheap
  refine ⟨hlen, ?_, hheap2⟩
  rw [set_val_self (by omega)] at hperm
  exact hperm

/-- `popHeapN` specification over the region `[0, n)` of a valid heap:
the old root value lands in slot `n-1`, the first `n-1` slots are again a
heap, slots at or beyond `n` are untouched, and the whole list is a
permutation of the input. -/
theorem popHeapN_spec {a : List Int} {n : Nat} (h1 : 1 ≤ n) (hn : n ≤ a.length)
    (hheap : isHeapProp a n) :
    (popHeapN a n).length = a.length ∧
    val (popHeapN a n) (n - 1) = val a 0 ∧
    isHeapProp (popHeapN a n) (n - 1) ∧
    (∀ i, n ≤ i → val (popHeapN a n) i = val a i) ∧
    (popHeapN a n).Perm a := by
  rcases eq_or_lt_of_le h1 with h1e | h2
  · -- n = 1 : the pop rewrites the single slot with its own value
    have hn1 : n = 1 := h1e.symm
    subst hn1
    have he : popHeapN a 1 = a := by
      unfold popHeapN
      rw [adjustHeap_leaf _ (by omega), set_val_self (by omega),
        promoteHeap_stop (by omega), set_val_self (by omega)]
    rw [he]
    exact ⟨rfl, rfl, by intro c h1 h2; omega, fun i _ => rfl, List.Perm.refl _⟩
  · -- n ≥ 2
    unfold popHeapN
    have hlen1 : (a.set (n - 1) (val a 0)).length = a.length := by simp
    have hval1 : ∀ c, c < n - 1 → val (a.set (n - 1) (val a 0)) c = val a c := by
      intro c hc
      exact val_set_ne (by omega) _
    obtain ⟨hlen, hframe, hfr2, hperm, hheap2⟩ :=
      adjustHeap_spec (a := a.set (n - 1) (val a 0)) (t := 0) (n := n - 1)
        (p := 0) (val a (n - 1))
        (by omega) (by omega) (isDesc_refl 0)
        (by intro c hc0 hcn hdc hpc
            rw [hval1 c hcn, hval1 (parent c) (by have := parent_lt (show 0 < c by omega); omega)]
            exact hheap c (by omega) (by omega))
        (by intro c hcn hc0 hpc hlt
            omega)
        (by intro c hc0 hcn hdc hnd
            exact absurd (isDesc_zero c) hnd)
    refine ⟨?_, ?_, ?_, ?_, ?_⟩
    · rw [hlen, hlen1]
    · rw [hframe (n - 1) (le_refl _), val_set_self (by omega)]
    · intro c hcn hc0
      exact hheap2 c hc0 hcn (isDesc_zero c)
    · intro i hi
      rw [hframe i (by omega)]
      exact val_set_ne (by omega) _
    · refine hperm.trans ?_
      have h3 : ((a.set (n - 1) (val a 0)).set 0 (val a (n - 1))).Perm
          (a.set (n - 1) (val a (n - 1))) :=
        perm_set_set (by omega) (by omega) (by omega) _
      rw [set_val_self (by omega)] at h3
      exact h3

/-- Invariant of the `makeHeap` loop: when called with `parentPosition = k`,
every parent-child pair whose parent index is at least `k` already satisfies
the heap relation; the loop then heapifies positions `k-1` down to `0`. -/
theorem makeHeapLoop_spec :
    ∀ (k : Nat) (a : List Int) (n : Nat), 0 < k → k - 1 < n → n ≤ a.length →
    (∀ c, c < n → 0 < c → k ≤ parent c → val a c ≤ val a (parent c)) →
    (makeHeapLoop a n k).length = a.length ∧ (makeHeapLoop a n k).Perm a ∧
    isHeapProp (makeHeapLoop a n k) n := by
  intro k
  induction k using Nat.strong_induction_on with
  | _ k ih =>
    intro a n hk0 hkn hn hheap
    obtain ⟨hlen, hframe_reg, hframe, hperm, hheap2⟩ :=
      adjustHeap_spec (a := a) (t := k - 1) (n := n) (p := k - 1)
        (val a (k - 1)) hn hkn (isDesc_refl _)
        (by intro c h1 h2 h3 h4
            refine hheap c h2 (by omega) ?_
            have h5 := isDesc_le (isDesc_parent_of_ne h3 (by omega))
            omega)
        (by intro c _ _ _ hlt
            omega)
        (by intro c _ _ h3 h4
            exact absurd h3 h4)
    have hperm2 : (adjustHeap a (k - 1) n (k - 1) (val a (k - 1))).Perm a := by
      rw [set_val_self (by omega)] at hperm
      exact hperm
    by_cases hk1 : k - 1 = 0
    · rw [makeHeapLoop_stop hk1]
      refine ⟨hlen, hperm2, ?_⟩
      intro c hcn hc0
      exact hheap2 c (by omega) hcn (by rw [hk1]; exact isDesc_zero c)
    · rw [makeHeapLoop_step hk1]
      obtain ⟨m1, m2, m3⟩ :=
        ih (k - 1) (by omega) (adjustHeap a (k - 1) n (k - 1) (val a (k - 1))) n
          (by omega) (by omega) (by omega)
          (by intro c hcn hc0 hpar
              have hplt := parent_lt hc0
              by_cases hdc : isDesc (k - 1) c = true
              · exact hheap2 c (isDesc_lt hdc (by omega)) hcn hdc
              · have hpdc : ¬ isDesc (k - 1) (parent c) = true := by
                  intro hcon
                  exact hdc (isDesc_child hcon rfl hc0)
                have hpne : parent c ≠ k - 1 := by
                  intro e
                  exact hpdc (e ▸ isDesc_refl _)
                rw [hframe c hdc, hframe (parent c) hpdc]
                exact hheap c hcn hc0 (by omega))
      exact ⟨m1.trans hlen, m2.trans hperm2, m3⟩

/-- `makeHeap` specification: for an arbitrary list the result satisfies the
heap invariant over the whole region with the same multiset of elements, and
regions of length below 2 are left untouched. -/
theorem makeHeap_spec (a : List Int) :
    (makeHeap a).length = a.length ∧ (makeHeap a).Perm a ∧
    isHeapProp (makeHeap a) a.length ∧ (a.length < 2 → makeHeap a = a) := by
  unfold makeHeap
  by_cases h : 2 ≤ a.length
  · rw [if_pos h]
    obtain ⟨m1, m2, m3⟩ :=
      makeHeapLoop_spec ((a.length - 2) / 2 + 1) a a.length (by omega)
        (by omega) (le_refl _)
        (by intro c hcn hc0 hpar
            exfalso
            simp only [parent] at hpar
            omega)
    exact ⟨m1, m2, m3, by omega⟩
  · rw [if_neg h]
    exact ⟨rfl, List.Perm.refl _, by intro c h1 h2; omega, fun _ => rfl⟩

/-- Invariant of the `sortHeap` loop: the active prefix `[0, n)` is a heap,
the suffix from `n` is sorted ascending, and every active element is at most
every suffix element.  The loop then sorts the whole list ascending. -/
theorem sortHeapLoop_spec :
    ∀ (n : Nat) (a : List Int), isHeapProp a n → n ≤ a.length →
    (∀ i j, n ≤ i → i ≤ j → j < a.length → val a i ≤ val a j) →
    (∀ i j, i < n → n ≤ j → j < a.length → val a i ≤ val a j) →
    (sortHeapLoop a n).length = a.length ∧ (sortHeapLoop a n).Perm a ∧
    (∀ i j, i ≤ j → j < a.length →
        val (sortHeapLoop a n) i ≤ val (sortHeapLoop a n) j) := by
  intro n
  induction n using Nat.strong_induction_on with
  | _ n ih =>
    intro a hheap hn hS1 hS2
    by_cases h2 : 1 < n
    · rw [sortHeapLoop_step h2]
      obtain ⟨plen, pval, pheap, pframe, pperm⟩ := popHeapN_spec (by omega) hn hheap
      have htake : ((popHeapN a n).take n).Perm (a.take n) :=
        take_perm_of_frame pperm plen pframe
      have hbound : ∀ i, i < n - 1 → val (popHeapN a n) i ≤ val a 0 := by
        intro i hi
        have hmem : val (popHeapN a n) i ∈ (popHeapN a n).take n :=
          val_mem_take (by omega) (by rw [plen]; omega)
        have hmem2 : val (popHeapN a n) i ∈ a.take n := htake.mem_iff.mp hmem
        obtain ⟨k, hk1, hk2, hk3⟩ := mem_take_exists_val hmem2
        rw [hk3]
        exact heap_max hheap k hk1
      obtain ⟨q1, q2, q3⟩ := ih (n - 1) (by omega) (popHeapN a n) pheap
        (by rw [plen]; omega)
        (by intro i j hi hij hj
            rcases eq_or_lt_of_le hij with rfl | hlt
            · exact le_refl _
            · rw [plen] at hj
              by_cases hin : i = n - 1
              · rw [hin, pval, pframe j (by omega)]
                exact hS2 0 j (by omega) (by omega) hj
              · have hin2 : n ≤ i := by omega
                rw [pframe i hin2, pframe j (by omega)]
                exact hS1 i j hin2 hij hj)
        (by intro i j hi hj hjl
            rw [plen] at hjl
            have hb := hbound i hi
            by_cases hjn : j = n - 1
            · rw [hjn, pval]
              exact hb
            · have hjn2 : n ≤ j := by omega
              rw [pframe j hjn2]
              exact le_trans hb (hS2 0 j (by omega) hjn2 hjl))
      refine ⟨q1.trans plen, q2.trans pperm, ?_⟩
      intro i j hij hj
      exact q3 i j hij (by rw [plen]; exact hj)
    · rw [sortHeapLoop_stop h2]
      refine ⟨rfl, List.Perm.refl _, ?_⟩
      intro i j hij hj
      rcases eq_or_lt_of_le hij with rfl | hlt
      · exact le_refl _
      · by_cases hin : n ≤ i
        · exact hS1 i j hin hij hj
        · exact hS2 i j (by omega) (by omega) hj

/-- `sortHeap` specification: applied to a valid heap it produces the
ascending sort of the same elements. -/
theorem sortHeap_spec {a : List Int} (hheap : isHeapProp a a.length) :
    (sortHeap a).length = a.length ∧ (sortHeap a).Perm a ∧
    List.Sorted (· ≤ ·) (sortHeap a) := by
  unfold sortHeap
  obtain ⟨h1, h2, h3⟩ := sortHeapLoop_spec a.length a hheap (le_refl _)
    (by intro i j hi hij hj; omega)
    (by intro i j hi hj hjl; omega)
  refine ⟨h1, h2, ?_⟩
  apply List.pairwise_iff_getElem.mpr
  intro i j hi hj hij
  have hthis := h3 i j (le_of_lt hij) (by rw [← h1]; exact hj)
  rw [val_eq_getElem hi, val_eq_getElem hj] at hthis
  exact hthis

/-- `popExtract` specification: popping `n` times from a heap over `[0, n)`
reads off exactly the region elements, in descending order. -/
theorem popExtract_spec :
    ∀ (n : Nat) (a : List Int), isHeapProp a n → n ≤ a.length →
    (popExtract a n).Perm (a.take n) ∧
    List.Sorted (· ≥ ·) (popExtract a n) := by
  intro n
  induction n with
  | zero =>
    intro a _ _
    exact ⟨by simp [popExtract], by simp [popExtract]⟩
  | succ m ih =>
    intro a hheap hn
    obtain ⟨plen, pval, pheap, pframe, pperm⟩ :=
      popHeapN_spec (n := m + 1) (by omega) hn hheap
    have pval2 : val (popHeapN a (m + 1)) m = val a 0 := by simpa using pval
    have pheap2 : isHeapProp (popHeapN a (m + 1)) m := by simpa using pheap
    obtain ⟨ih1, ih2⟩ := ih (popHeapN a (m + 1)) pheap2 (by rw [plen]; omega)
    have htake : ((popHeapN a (m + 1)).take (m + 1)).Perm (a.take (m + 1)) :=
      take_perm_of_frame pperm plen pframe
    have hmax : ∀ y ∈ popExtract (popHeapN a (m + 1)) m, y ≤ val a 0 := by
      intro y hy
      have hy2 : y ∈ (popHeapN a (m + 1)).take m := ih1.mem_iff.mp hy
      obtain ⟨i, hi1, hi2, hi3⟩ := mem_take_exists_val hy2
      have hy3 : y ∈ (popHeapN a (m + 1)).take (m + 1) := by
        rw [hi3]
        exact val_mem_take (by omega) hi2
      have hy4 : y ∈ a.take (m + 1) := htake.mem_iff.mp hy3
      obtain ⟨k, hk1, hk2, hk3⟩ := mem_take_exists_val hy4
      rw [hk3]
      exact heap_max hheap k hk1
    have hm : m < (popHeapN a (m + 1)).length := by rw [plen]; omega
    have hstep : popExtract a (m + 1)
        = val (popHeapN a (m + 1)) m :: popExtract (popHeapN a (m + 1)) m := rfl
    constructor
    · rw [hstep]
      have hc1 : (val (popHeapN a (m + 1)) m :: popExtract (popHeapN a (m + 1)) m).Perm
          (val (popHeapN a (m + 1)) m :: (popHeapN a (m + 1)).take m) := ih1.cons _
      have hc2 : (val (popHeapN a (m + 1)) m :: (popHeapN a (m + 1)).take m).Perm
          ((popHeapN a (m + 1)).take m ++ [val (popHeapN a (m + 1)) m]) :=
        (List.perm_append_singleton _ _).symm
      have hc3 : (popHeapN a (m + 1)).take m ++ [val (popHeapN a (m + 1)) m]
          = (popHeapN a (m + 1)).take (m + 1) := by
        rw [List.take_succ, List.getElem?_eq_getElem hm]
        simp [val_eq_getElem hm]
      exact hc1.trans (hc2.trans (by rw [hc3]; exact htake))
    · rw [hstep]
      refine List.sorted_cons.mpr ⟨?_, ih2⟩
      intro y hy
      rw [pval2]
      exact hmax y hy

/-- `removeHeap` specification on a valid heap: the value at `position`
moves to slot `heapSize-1`, the first `heapSize-1` slots are again a heap,
and the storage keeps the same length and the same region multiset. -/
theorem removeHeap_spec {a : List Int} {n p : Nat} (h1 : 1 ≤ n)
    (hn : n ≤ a.length) (hp : p < n) (hheap : isHeapProp a n) :
    (removeHeap a n p).length = a.length ∧
    val (removeHeap a n p) (n - 1) = val a p ∧
    isHeapProp (removeHeap a n p) (n - 1) ∧
    ((removeHeap a n p).take n).Perm (a.take n) ∧
    (∀ i, n ≤ i → val (removeHeap a n p) i = val a i) := by
  by_cases hpn : p = n - 1
  · -- removing the trailing element leaves the storage unchanged
    have hng : ¬(0 < n - 1 ∧ val a (parent (n - 1)) < val a (n - 1)) := by
      rintro ⟨hh1, hh2⟩
      exact absurd hh2 (not_lt.mpr (hheap (n - 1) (by omega) hh1))
    have he : removeHeap a n p = a := by
      unfold removeHeap
      rw [hpn, set_val_self (by omega), adjustHeap_leaf _ (by omega),
        promoteHeap_stop hng, set_val_self (by omega)]
    rw [he, hpn]
    exact ⟨rfl, rfl, by intro c hc1 hc2; exact hheap c (by omega) hc2,
      List.Perm.refl _, fun i _ => rfl⟩
  · have hp2 : p < n - 1 := by omega
    unfold removeHeap
    have hv1 : ∀ c, c ≠ n - 1 → val (a.set (n - 1) (val a p)) c = val a c := by
      intro c hc
      exact val_set_ne (by omega) _
    obtain ⟨hlen, hframe, hfr2, hperm, hheap2⟩ :=
      adjustHeap_spec (a := a.set (n - 1) (val a p)) (t := 0) (n := n - 1)
        (p := p) (val a (n - 1)) (by simp; omega) hp2 (isDesc_zero p)
        (by intro c hc1 hc2 hc3 hc4
            have hplt := parent_lt (show 0 < c by omega)
            rw [hv1 c (by omega), hv1 (parent c) (by omega)]
            exact hheap c (by omega) (by omega))
        (by intro c hc1 hc2 hc3 hc4
            have hplt := parent_lt (show 0 < p by omega)
            rw [hv1 c (by omega), hv1 (parent p) (by omega)]
            have hr1 := hheap c (by omega) hc2
            rw [hc3] at hr1
            exact le_trans hr1 (hheap p (by omega) (by omega)))
        (by intro c hc1 hc2 hc3 hc4
            have hplt := parent_lt (show 0 < c by omega)
            rw [hv1 c (by omega), hv1 (parent c) (by omega)]
            exact hheap c (by omega) (by omega))
    have hperm2 : (adjustHeap (a.set (n - 1) (val a p)) 0 (n - 1) p
        (val a (n - 1))).Perm a := by
      refine hperm.trans ?_
      have h3 := perm_set_set (a := a) (i := n - 1) (j := p) (by omega)
        (by omega) (by omega) (val a (n - 1))
      rw [set_val_self (by omega)] at h3
      exact h3
    have hframe2 : ∀ i, n ≤ i →
        val (adjustHeap (a.set (n - 1) (val a p)) 0 (n - 1) p (val a (n - 1))) i
          = val a i := by
      intro i hi
      rw [hframe i (by omega), hv1 i (by omega)]
    refine ⟨by rw [hlen]; simp, ?_, ?_, ?_, hframe2⟩
    · rw [hframe (n - 1) (le_refl _), val_set_self (by omega)]
    · intro c hc1 hc2
      exact hheap2 c hc2 hc1 (isDesc_zero c)
    · exact take_perm_of_frame hperm2 (by rw [hlen]; simp) hframe2

/-- `removeHeap` applied to a heap whose entry at `position` was overwritten
by an arbitrary value `w`: the remaining region is a heap again and the
storage is a permutation of the modified input. -/
theorem removeHeap_changed {h : List Int} {n p : Nat} (w : Int) (h1 : 1 ≤ n)
    (hn : n ≤ h.length) (hp : p < n) (hheap : isHeapProp h n) :
    (removeHeap (h.set p w) n p).length = h.length ∧
    isHeapProp (removeHeap (h.set p w) n p) (n - 1) ∧
    (removeHeap (h.set p w) n p).Perm (h.set p w) ∧
    (∀ i, n ≤ i → val (removeHeap (h.set p w) n p) i = val (h.set p w) i) := by
  have hplen : p < h.length := by omega
  have hvap : val (h.set p w) p = w := val_set_self hplen _
  by_cases hpn : p = n - 1
  · -- the modified entry is the trailing one: remove is a sift-up of w
    have he : removeHeap (h.set p w) n p
        = promoteHeap (h.set p w) 0 (n - 1) w := by
      unfold removeHeap
      rw [hpn] at hvap ⊢
      rw [set_val_self (by simp; omega), adjustHeap_leaf _ (by omega), hvap]
    obtain ⟨q1, q2, q3, q4⟩ := promote_push (a := h.set p w) (n := n) w h1
      (by simp; omega)
      (by intro c hc1 hc2
          have hplt := parent_lt hc2
          rw [val_set_ne (show p ≠ c by omega) _,
            val_set_ne (show p ≠ parent c by omega) _]
          exact hheap c (by omega) hc2)
    rw [he]
    refine ⟨by rw [q1]; simp, ?_, ?_, ?_⟩
    · intro c hc1 hc2
      exact q3 c (by omega) hc2
    · refine q2.trans ?_
      rw [hpn] at hvap ⊢
      rw [List.set_set]
    · intro i hi
      exact q4 i hi
  · have hp2 : p < n - 1 := by omega
    have hv1 : ∀ c, c ≠ n - 1 → c ≠ p →
        val ((h.set p w).set (n - 1) (val (h.set p w) p)) c = val h c := by
      intro c hc1 hc2
      rw [val_set_ne (by omega) _, val_set_ne (fun e => hc2 e.symm) _]
    obtain ⟨hlen, hframe, hfr2, hperm, hheap2⟩ :=
      adjustHeap_spec (a := (h.set p w).set (n - 1) (val (h.set p w) p))
        (t := 0) (n := n - 1) (p := p) (val (h.set p w) (n - 1))
        (by simp; omega) hp2 (isDesc_zero p)
        (by intro c hc1 hc2 hc3 hc4
            have hplt := parent_lt (show 0 < c by omega)
            rw [hv1 c (by omega) (by omega), hv1 (parent c) (by omega) hc4]
            exact hheap c (by omega) (by omega))
        (by intro c hc1 hc2 hc3 hc4
            have hplt := parent_lt (show 0 < p by omega)
            have hcp : c ≠ p := by
              have := lt_of_parent_eq hc3 hc2
              omega
            rw [hv1 c (by omega) hcp, hv1 (parent p) (by omega) (by omega)]
            have hr1 := hheap c (by omega) hc2
            rw [hc3] at hr1
            exact le_trans hr1 (hheap p (by omega) (by omega)))
        (by intro c hc1 hc2 hc3 hc4
            have hplt := parent_lt (show 0 < c by omega)
            have hcp : c ≠ p := by
              rintro rfl
              exact hc4 (isDesc_refl _)
            have hpcp : parent c ≠ p := by
              intro e
              exact hc4 (isDesc_child (isDesc_refl p) e (by omega))
            rw [hv1 c (by omega) hcp, hv1 (parent c) (by omega) hpcp]
            exact hheap c (by omega) (by omega))
    have hperm2 : (removeHeap (h.set p w) n p).Perm (h.set p w) := by
      show (adjustHeap ((h.set p w).set (n - 1) (val (h.set p w) p)) 0 (n - 1) p
        (val (h.set p w) (n - 1))).Perm (h.set p w)
      refine hperm.trans ?_
      have h3 := perm_set_set (a := h.set p w) (i := n - 1) (j := p)
        (by simp; omega) (by simp; omega) (by omega) (val (h.set p w) (n - 1))
      rw [set_val_self (by simp; omega)] at h3
      exact h3
    refine ⟨?_, ?_, hperm2, ?_⟩
    · show (adjustHeap _ 0 (n - 1) p _).length = h.length
      rw [hlen]
      simp
    · intro c hc1 hc2
      exact hheap2 c hc2 hc1 (isDesc_zero c)
    · intro i hi
      show val (adjustHeap _ 0 (n - 1) p _) i = val (h.set p w) i
      rw [hframe i (by omega), val_set_ne (by omega) _]

/-- `changeHeap` specification, for the input the contract describes: a valid
heap whose entry at `position` was overwritten externally.  The operation
restores the heap invariant over the full region, with unchanged length and
region multiset. -/
theorem changeHeap_spec {h : List Int} {n p : Nat} (w : Int) (h1 : 1 ≤ n)
    (hn : n ≤ h.length) (hp : p < n) (hheap : isHeapProp h n) :
    (changeHeap (h.set p w) n p).length = (h.set p w).length ∧
    isHeapProp (changeHeap (h.set p w) n p) n ∧
    ((changeHeap (h.set p w) n p).take n).Perm ((h.set p w).take n) := by
  obtain ⟨r1, r2, r3, r4⟩ := removeHeap_changed w h1 hn hp hheap
  have hch : changeHeap (h.set p w) n p
      = promoteHeap (removeHeap (h.set p w) n p) 0 (n - 1)
        (val (removeHeap (h.set p w) n p) (n - 1)) := rfl
  obtain ⟨q1, q2, q3, q4⟩ := promote_push (a := removeHeap (h.set p w) n p)
    (n := n) (val (removeHeap (h.set p w) n p) (n - 1)) h1 (by omega) r2
  rw [hch]
  have hperm : (promoteHeap (removeHeap (h.set p w) n p) 0 (n - 1)
      (val (removeHeap (h.set p w) n p) (n - 1))).Perm (h.set p w) := by
    refine q2.trans ?_
    rw [set_val_self (by omega)]
    exact r3
  refine ⟨by rw [q1, r1]; simp, q3, ?_⟩
  refine take_perm_of_frame hperm (by rw [q1, r1]; simp) ?_
  intro i hi
  rw [q4 i hi, r4 i hi]

/-! ### Specification of `isHeap_until` and `isHeap` -/

/-- Invariant of the `isHeap_until` scan: the moving parent pointer always
sits at `parent child` and the alternation counter equals `(child-1) % 2`.
The loop returns either `n` with no violation from `child` on, or the first
violating child position at or after `child`. -/
theorem isHeapUntilLoop_spec :
    ∀ (fuel : Nat) (a : List Int) (n child counter : Nat),
    n - child ≤ fuel → 0 < child → counter = (child - 1) % 2 →
    (isHeapUntilLoop a n (parent child) child counter = n ∧
      (∀ j, child ≤ j → j < n → ¬ val a (parent j) < val a j)) ∨
    (child ≤ isHeapUntilLoop a n (parent child) child counter ∧
      isHeapUntilLoop a n (parent child) child counter < n ∧
      val a (parent (isHeapUntilLoop a n (parent child) child counter))
        < val a (isHeapUntilLoop a n (parent child) child counter) ∧
      (∀ j, child ≤ j → j < isHeapUntilLoop a n (parent child) child counter →
        ¬ val a (parent j) < val a j)) := by
  intro fuel
  induction fuel with
  | zero =>
    intro a n child counter hfuel hc0 hcnt
    have hge : ¬ child < n := by omega
    rw [isHeapUntilLoop_exit hge]
    exact Or.inl ⟨rfl, fun j hj1 hj2 => by omega⟩
  | succ fuel ih =>
    intro a n child counter hfuel hc0 hcnt
    by_cases hlt : child < n
    · by_cases hv : val a (parent child) < val a child
      · rw [isHeapUntilLoop_found hlt hv]
        exact Or.inr ⟨le_refl _, hlt, hv, fun j hj1 hj2 => by omega⟩
      · rw [isHeapUntilLoop_next hlt hv]
        have hpar : parent child + counter = parent (child + 1) := by
          rw [hcnt]
          simp only [parent]
          omega
        have hcnt2 : counter ^^^ 1 = (child + 1 - 1) % 2 := by
          rw [hcnt]
          rcases Nat.mod_two_eq_zero_or_one (child - 1) with h | h <;> rw [h]
          · have h2 : child % 2 = 1 := by omega
            rw [Nat.succ_sub_one, h2]
            decide
          · have h2 : child % 2 = 0 := by omega
            rw [Nat.succ_sub_one, h2]
            decide
        rw [hpar, hcnt2]
        rcases ih a n (child + 1) ((child + 1 - 1) % 2) (by omega) (by omega) rfl
          with ⟨he, hnone⟩ | ⟨hr1, hr2, hr3, hr4⟩
        · refine Or.inl ⟨he, ?_⟩
          intro j hj1 hj2
          rcases eq_or_lt_of_le hj1 with rfl | hj3
          · exact hv
          · exact hnone j (by omega) hj2
        · refine Or.inr ⟨by omega, hr2, hr3, ?_⟩
          intro j hj1 hj2
          rcases eq_or_lt_of_le hj1 with rfl | hj3
          · exact hv
          · exact hr4 j (by omega) hj2
    · rw [isHeapUntilLoop_exit hlt]
      exact Or.inl ⟨rfl, fun j hj1 hj2 => by omega⟩

/-- `isHeap_until` returns the position of the first heap violation, or the
length of the list if there is none. -/
theorem isHeap_until_firstViolation (a : List Int) :
    (∀ c, 0 < c → c < isHeap_until a → ¬ val a (parent c) < val a c) ∧
    (isHeap_until a = a.length ∨
      (isHeap_until a < a.length ∧
        val a (parent (isHeap_until a)) < val a (isHeap_until a))) := by
  have hp1 : (0 : Nat) = parent 1 := rfl
  have hloop : isHeap_until a = isHeapUntilLoop a a.length (parent 1) 1 0 := by
    unfold isHeap_until
    rw [hp1]
  rcases isHeapUntilLoop_spec a.length a a.length 1 0 (by omega) (by omega) rfl
    with ⟨he, hnone⟩ | ⟨hr1, hr2, hr3, hr4⟩
  · constructor
    · intro c hc1 hc2
      rw [hloop, he] at hc2
      exact hnone c (by omega) hc2
    · left
      rw [hloop, he]
  · constructor
    · intro c hc1 hc2
      rw [hloop] at hc2
      exact hr4 c (by omega) hc2
    · right
      rw [hloop]
      exact ⟨hr2, hr3⟩

/-- `isHeap` decides exactly the heap invariant over the whole list. -/
theorem isHeap_iff (a : List Int) : isHeap a = true ↔ isHeapProp a a.length := by
  obtain ⟨hfv, hdisj⟩ := isHeap_until_firstViolation a
  unfold isHeap
  rw [decide_eq_true_eq]
  constructor
  · intro he c hc1 hc2
    exact not_lt.mp (hfv c hc2 (by rw [he]; exact hc1))
  · intro hprop
    rcases hdisj with he | ⟨hlt, hviol⟩
    · exact he
    · have hr0 : 0 < isHeap_until a := by
        rcases Nat.eq_zero_or_pos (isHeap_until a) with h0 | h
        · rw [h0] at hviol
          have hpz : parent 0 = 0 := rfl
          rw [hpz] at hviol
          exact absurd hviol (lt_irrefl _)
        · exact h
      exact absurd hviol (not_lt.mpr (hprop _ hlt hr0))

/-! ### Sorted-list helpers -/

theorem sorted_val_mono {l : List Int} (hs : List.Sorted (· ≤ ·) l) {i j : Nat}
    (hij : i ≤ j) (hj : j < l.length) : val l i ≤ val l j := by
  rcases eq_or_lt_of_le hij with rfl | hlt
  · exact le_refl _
  · have h1 := List.pairwise_iff_getElem.mp hs i j (by omega) hj hlt
    rw [val_eq_getElem (by omega), val_eq_getElem hj]
    exact h1

/-- A sorted list containing two distinct values has a strictly increasing
adjacent pair. -/
theorem sorted_two_ne_exists_lt :
    ∀ (l : List Int), List.Sorted (· ≤ ·) l →
    ∀ x y : Int, x ∈ l → y ∈ l → x ≠ y →
    ∃ k, k + 1 < l.length ∧ val l k < val l (k + 1) := by
  intro l
  induction l with
  | nil =>
    intro _ x y hx
    simp at hx
  | cons z1 tl ih =>
    intro hs x y hx hy hxy
    cases tl with
    | nil =>
      simp at hx hy
      exact absurd (hx.trans hy.symm) hxy
    | cons z2 tl2 =>
      have hz12 : z1 ≤ z2 := (List.sorted_cons.mp hs).1 z2 (by simp)
      have hs2 : List.Sorted (· ≤ ·) (z2 :: tl2) := (List.sorted_cons.mp hs).2
      by_cases hlt : z1 < z2
      · exact ⟨0, by simp, by simpa [val] using hlt⟩
      · have heq : z1 = z2 := le_antisymm hz12 (not_lt.mp hlt)
        have hx2 : x ∈ z2 :: tl2 := by
          rcases List.mem_cons.mp hx with rfl | h
          · rw [heq]
            exact List.mem_cons_self _ _
          · exact h
        have hy2 : y ∈ z2 :: tl2 := by
          rcases List.mem_cons.mp hy with rfl | h
          · rw [heq]
            exact List.mem_cons_self _ _
          · exact h
        obtain ⟨k, hk1, hk2⟩ := ih hs2 x y hx2 hy2 hxy
        refine ⟨k + 1, by simpa using hk1, ?_⟩
        simpa [val, List.getD_cons_succ] using hk2

/-! ### The claims -/

/-- C1: for every sequence, in arbitrary order and with no precondition,
`makeHeap` establishes the max-heap invariant over the whole region
(`isHeap` reports no violation), and a region of length below 2 is left
unchanged. -/
theorem claim_C1 (a : List Int) :
    isHeap (makeHeap a) = true ∧ (makeHeap a).Perm a ∧
    (a.length < 2 → makeHeap a = a) := by
  obtain ⟨m1, m2, m3, m4⟩ := makeHeap_spec a
  refine ⟨(isHeap_iff _).mpr ?_, m2, m4⟩
  rw [m1]
  exact m3

theorem claim_C1_witness :
    isHeap (makeHeap [3, 1, 4, 1, 5, 9, 2, 6]) = true ∧ makeHeap [7] = [7] :=
  ⟨(claim_C1 [3, 1, 4, 1, 5, 9, 2, 6]).1, (claim_C1 [7]).2.2 (by decide)⟩

/-- C2: popping a valid heap of size at least 1 moves the previous root
value to the back slot, leaves a valid heap holding the remaining elements
on the shrunk region, and popping `n` times yields the elements in
descending priority order. -/
theorem claim_C2 (a : List Int) (h1 : 1 ≤ a.length)
    (hheap : isHeapProp a a.length) :
    val (popHeap a) (a.length - 1) = val a 0 ∧
    isHeapProp (popHeap a) (a.length - 1) ∧
    (popHeap a).Perm a ∧
    ((popHeap a).take (a.length - 1) ++ [val a 0]).Perm a ∧
    (popExtract a a.length).Perm a ∧
    List.Sorted (· ≥ ·) (popExtract a a.length) := by
  obtain ⟨plen, pval, pheap, pframe, pperm⟩ := popHeapN_spec h1 (le_refl _) hheap
  obtain ⟨e1, e2⟩ := popExtract_spec a.length a hheap (le_refl _)
  rw [List.take_length] at e1
  have hb : popHeap a = popHeapN a a.length := rfl
  rw [hb]
  refine ⟨pval, pheap, pperm, ?_, e1, e2⟩
  have hsplit : ∀ (b : List Int) (m : Nat), m < b.length →
      b.take m ++ [val b m] = b.take (m + 1) := by
    intro b m hm
    rw [List.take_succ, List.getElem?_eq_getElem hm]
    simp [val_eq_getElem hm]
  rw [← pval, hsplit (popHeapN a a.length) (a.length - 1) (by rw [plen]; omega)]
  have he : a.length - 1 + 1 = a.length := by omega
  rw [he, List.take_of_length_le (by rw [plen])]
  exact pperm

theorem claim_C2_witness :
    (1 ≤ ([9, 6, 5, 4, 3, 2, 1] : List Int).length
      ∧ isHeapProp [9, 6, 5, 4, 3, 2, 1] ([9, 6, 5, 4, 3, 2, 1] : List Int).length) ∧
    List.Sorted (· ≥ ·)
      (popExtract [9, 6, 5, 4, 3, 2, 1] ([9, 6, 5, 4, 3, 2, 1] : List Int).length) :=
  ⟨⟨by decide, by decide⟩,
    (claim_C2 [9, 6, 5, 4, 3, 2, 1] (by decide) (by decide)).2.2.2.2.2⟩

/-- C3: if the first `n-1` slots satisfy the heap invariant and the slot at
`n-1` holds an arbitrary new value, `pushHeap` produces a valid heap over
the whole region with the same multiset of elements. -/
theorem claim_C3 (a : List Int) (h1 : 1 ≤ a.length)
    (hheap : isHeapProp a (a.length - 1)) :
    isHeap (pushHeap a) = true ∧ (pushHeap a).Perm a := by
  obtain ⟨q1, q2, q3⟩ := pushHeap_spec h1 hheap
  refine ⟨(isHeap_iff _).mpr ?_, q2⟩
  rw [q1]
  exact q3

theorem claim_C3_witness :
    (1 ≤ ([9, 6, 5, 4, 3, 2, 1, 7] : List Int).length
      ∧ isHeapProp [9, 6, 5, 4, 3, 2, 1, 7]
          (([9, 6, 5, 4, 3, 2, 1, 7] : List Int).length - 1)) ∧
    isHeap (pushHeap [9, 6, 5, 4, 3, 2, 1, 7]) = true :=
  ⟨⟨by decide, by decide⟩,
    (claim_C3 [9, 6, 5, 4, 3, 2, 1, 7] (by decide) (by decide)).1⟩

/-- C4: sorting a valid heap arranges the same multiset of elements in
ascending order under the comparator — the result is exactly the ascending
sort of the original contents. -/
theorem claim_C4 (a : List Int) (hheap : isHeapProp a a.length) :
    List.Sorted (· ≤ ·) (sortHeap a) ∧ (sortHeap a).Perm a ∧
    sortHeap a = List.insertionSort (· ≤ ·) a := by
  obtain ⟨h1, h2, h3⟩ := sortHeap_spec hheap
  refine ⟨h3, h2, ?_⟩
  exact List.eq_of_perm_of_sorted
    (h2.trans (List.perm_insertionSort _ a).symm) h3
    (List.sorted_insertionSort _ a)

theorem claim_C4_witness :
    isHeapProp [9, 6, 5, 4, 3, 2, 1] ([9, 6, 5, 4, 3, 2, 1] : List Int).length ∧
    sortHeap [9, 6, 5, 4, 3, 2, 1]
      = List.insertionSort (· ≤ ·) [9, 6, 5, 4, 3, 2, 1] :=
  ⟨by decide, (claim_C4 [9, 6, 5, 4, 3, 2, 1] (by decide)).2.2⟩

/-- C5: removing position `p` from a valid heap of size `heapSize` leaves a
valid heap on `[0, heapSize-1)`, deposits the removed value at index
`heapSize-1`, and keeps the count and multiset of the full region unchanged. -/
theorem claim_C5 (a : List Int) (n p : Nat) (h1 : 1 ≤ n) (hn : n ≤ a.length)
    (hp : p < n) (hheap : isHeapProp a n) :
    isHeapProp (removeHeap a n p) (n - 1) ∧
    val (removeHeap a n p) (n - 1) = val a p ∧
    (removeHeap a n p).length = a.length ∧
    ((removeHeap a n p).take n).Perm (a.take n) := by
  obtain ⟨r1, r2, r3, r4, r5⟩ := removeHeap_spec h1 hn hp hheap
  exact ⟨r3, r2, r1, r4⟩

theorem claim_C5_witness :
    (1 ≤ 7 ∧ 7 ≤ ([9, 6, 5, 4, 3, 2, 1] : List Int).length ∧ 3 < 7
      ∧ isHeapProp [9, 6, 5, 4, 3, 2, 1] 7) ∧
    isHeapProp (removeHeap [9, 6, 5, 4, 3, 2, 1] 7 3) 6 :=
  ⟨⟨by decide, by decide, by decide, by decide⟩,
    (claim_C5 [9, 6, 5, 4, 3, 2, 1] 7 3 (by decide) (by decide) (by decide)
      (by decide)).1⟩

/-- C6, counterexample to the claim as stated: the sequence
`[10, 5, 9, 100, 1]` with `heapSize = 5` satisfies the heap invariant
everywhere except in comparisons involving the element at `position = 1`,
yet after `changeHeap` the region violates the heap invariant. -/
theorem claim_C6_counterexample :
    heapExceptAt [10, 5, 9, 100, 1] 5 1 ∧
    isHeap (changeHeap [10, 5, 9, 100, 1] 5 1) = false := by
  constructor
  · decide
  · have h1 : changeHeapF [10, 5, 9, 100, 1] 5 1 = some [10, 100, 9, 1, 5] := by
      decide
    have h2 := changeHeapF_eq [10, 5, 9, 100, 1] 5 1
    rw [h1] at h2
    have h3 : changeHeap [10, 5, 9, 100, 1] 5 1 = [10, 100, 9, 1, 5] :=
      (Option.some.inj h2).symm
    rw [h3]
    have h4 : isHeapF ([10, 100, 9, 1, 5] : List Int) = some false := by decide
    have h5 := isHeapF_eq ([10, 100, 9, 1, 5] : List Int)
    rw [h4] at h5
    exact (Option.some.inj h5).symm

/-- C6, amended: for every sequence obtained from a valid heap over
`[0, heapSize)` by overwriting the entry at `position` with an arbitrary
re-prioritized value, `changeHeap` restores the heap invariant over the full
region, leaving the heap size and the multiset of stored elements
unchanged. -/
theorem claim_C6 (h : List Int) (n p : Nat) (w : Int) (h1 : 1 ≤ n)
    (hn : n ≤ h.length) (hp : p < n) (hheap : isHeapProp h n) :
    isHeapProp (changeHeap (h.set p w) n p) n ∧
    (changeHeap (h.set p w) n p).length = (h.set p w).length ∧
    ((changeHeap (h.set p w) n p).take n).Perm ((h.set p w).take n) := by
  obtain ⟨c1, c2, c3⟩ := changeHeap_spec w h1 hn hp hheap
  exact ⟨c2, c1, c3⟩

theorem claim_C6_witness :
    (1 ≤ 4 ∧ 4 ≤ ([9, 6, 5, 4] : List Int).length ∧ 1 < 4
      ∧ isHeapProp [9, 6, 5, 4] 4) ∧
    isHeapProp (changeHeap (([9, 6, 5, 4] : List Int).set 1 100) 4 1) 4 :=
  ⟨⟨by decide, by decide, by decide, by decide⟩,
    (claim_C6 [9, 6, 5, 4] 4 1 100 (by decide) (by decide) (by decide)
      (by decide)).1⟩

/-- C7: `isHeap_until` returns the first position whose parent compares
lower-priority than it — no violation exists strictly before the returned
position, and the returned position is either `last` or itself a violation;
`isHeap` holds exactly when `isHeap_until` returns `last`. -/
theorem claim_C7 (a : List Int) :
    (∀ c, 0 < c → c < isHeap_until a → ¬ val a (parent c) < val a c) ∧
    (isHeap_until a = a.length ∨
      (isHeap_until a < a.length ∧
        val a (parent (isHeap_until a)) < val a (isHeap_until a))) ∧
    (isHeap a = true ↔ isHeap_until a = a.length) := by
  obtain ⟨h1, h2⟩ := isHeap_until_firstViolation a
  refine ⟨h1, h2, ?_⟩
  unfold isHeap
  exact ⟨fun h => of_decide_eq_true h, fun h => decide_eq_true h⟩

/-- C8, counterexample to the claim as stated: `[0, 0]` is a valid heap, and
after `sortHeap` the region still satisfies the heap invariant, so `isHeap`
returns `true`, not `false`. -/
theorem claim_C8_counterexample :
    isHeap ([0, 0] : List Int) = true ∧
    isHeap (sortHeap ([0, 0] : List Int)) = true := by
  have hs : sortHeap ([0, 0] : List Int) = [0, 0] := by
    have h1 : sortHeapF ([0, 0] : List Int) = some [0, 0] := by decide
    have h2 := sortHeapF_eq ([0, 0] : List Int)
    rw [h1] at h2
    exact (Option.some.inj h2).symm
  have hh : isHeap ([0, 0] : List Int) = true := by
    have h1 : isHeapF ([0, 0] : List Int) = some true := by decide
    have h2 := isHeapF_eq ([0, 0] : List Int)
    rw [h1] at h2
    exact (Option.some.inj h2).symm
  exact ⟨hh, by rw [hs]; exact hh⟩

/-- C8, amended: for every valid heap containing at least two distinct
values, after `sortHeap` the region no longer satisfies the heap invariant
(`isHeap` returns `false`).  (A heap whose elements are all equal stays
sorted in heap order, so the original unconditional claim fails there.) -/
theorem claim_C8 (a : List Int) (hheap : isHeapProp a a.length)
    (hdist : ∃ x ∈ a, x ≠ val a 0) :
    isHeap (sortHeap a) = false := by
  obtain ⟨h1, h2, h3⟩ := sortHeap_spec hheap
  obtain ⟨x, hx, hxne⟩ := hdist
  have hne : a ≠ [] := by rintro rfl; simp at hx
  have hlen0 : 0 < a.length := List.length_pos.mpr hne
  have hmem0 : val a 0 ∈ a := by
    rw [val_eq_getElem hlen0]
    exact List.getElem_mem hlen0
  have hx2 : x ∈ sortHeap a := h2.mem_iff.mpr hx
  have h02 : val a 0 ∈ sortHeap a := h2.mem_iff.mpr hmem0
  obtain ⟨k, hk1, hk2⟩ := sorted_two_ne_exists_lt _ h3 x (val a 0) hx2 h02 hxne
  have hviol : val (sortHeap a) (parent (k + 1)) < val (sortHeap a) (k + 1) := by
    refine lt_of_le_of_lt ?_ hk2
    exact sorted_val_mono h3 (by simp only [parent]; omega) (by omega)
  have hnot : ¬ isHeap (sortHeap a) = true := by
    intro hb
    have hprop := (isHeap_iff _).mp hb
    exact absurd hviol (not_lt.mpr (hprop (k + 1) hk1 (by omega)))
  exact Bool.not_eq_true _ ▸ hnot

theorem claim_C8_witness :
    (isHeapProp [9, 6, 5, 4, 3, 2, 1] ([9, 6, 5, 4, 3, 2, 1] : List Int).length
      ∧ ∃ x ∈ ([9, 6, 5, 4, 3, 2, 1] : List Int), x ≠ val [9, 6, 5, 4, 3, 2, 1] 0) ∧
    isHeap (sortHeap [9, 6, 5, 4, 3, 2, 1]) = false :=
  ⟨⟨by decide, by decide⟩,
    claim_C8 [9, 6, 5, 4, 3, 2, 1] (by decide) (by decide)⟩

/-- C9: every operation terminates, with each loop bounded by its strictly
monotone measure: the fuel-indexed structural variants return `some` of the
total functions at the explicit fuel bounds (position + 1 for sift-up,
`heapSize - childPosition + 1` for sift-down, `parentPosition` for the
`makeHeap` loop, region length + 1 for the `sortHeap` loop, and the scan
length for `isHeap_until`), and all nine public operations complete. -/
theorem claim_C9 :
    (∀ (a : List Int) (t q : Nat) (v : Int),
      promoteHeapF (q + 1) a t q v = some (promoteHeap a t q v)) ∧
    (∀ (a : List Int) (n p child : Nat),
      adjustLoopF (n - child + 1) a n p child = some (adjustLoop a n p child)) ∧
    (∀ (a : List Int) (t n p : Nat) (v : Int),
      adjustHeapF a t n p v = some (adjustHeap a t n p v)) ∧
    (∀ (a : List Int), pushHeapF a = some (pushHeap a)) ∧
    (∀ (a : List Int), popHeapF a = some (popHeap a)) ∧
    (∀ (a : List Int) (n k : Nat), 0 < k →
      makeHeapLoopF k a n k = some (makeHeapLoop a n k)) ∧
    (∀ (a : List Int), makeHeapF a = some (makeHeap a)) ∧
    (∀ (a : List Int) (n : Nat),
      sortHeapLoopF (n + 1) a n = some (sortHeapLoop a n)) ∧
    (∀ (a : List Int), sortHeapF a = some (sortHeap a)) ∧
    (∀ (a : List Int) (n p : Nat), removeHeapF a n p = some (removeHeap a n p)) ∧
    (∀ (a : List Int) (n p : Nat), changeHeapF a n p = some (changeHeap a n p)) ∧
    (∀ (a : List Int) (n p child counter : Nat),
      isHeapUntilLoopF (n - child + 1) a n p child counter
        = some (isHeapUntilLoop a n p child counter)) ∧
    (∀ (a : List Int), isHeapF a = some (isHeap a)) :=
  ⟨fun a t q v => promoteHeapF_eq _ a t q v (by omega),
    fun a n p child => adjustLoopF_eq _ a n p child (by omega),
    adjustHeapF_eq, pushHeapF_eq, popHeapF_eq,
    fun a n k hk => makeHeapLoopF_eq _ a n k hk (le_refl _),
    makeHeapF_eq,
    fun a n => sortHeapLoopF_eq _ a n (by omega),
    sortHeapF_eq, removeHeapF_eq, changeHeapF_eq,
    fun a n p child counter => isHeapUntilLoopF_eq _ a n p child counter (by omega),
    isHeapF_eq⟩

theorem claim_C9_witness :
    0 < 1 ∧ makeHeapLoopF 1 [3, 2] 2 1 = some (makeHeapLoop [3, 2] 2 1) :=
  ⟨by decide, claim_C9.2.2.2.2.2.1 [3, 2] 2 1 (by decide)⟩

/-- C10: on an empty or singleton range the scan loop never runs, so
`isHeap_until` returns `last` and `isHeap` returns `true`. -/
theorem claim_C10 (a : List Int) (h : a.length ≤ 1) :
    isHeap_until a = a.length ∧ isHeap a = true := by
  have he : isHeap_until a = a.length := by
    unfold isHeap_until
    rw [isHeapUntilLoop_exit (by omega)]
  exact ⟨he, decide_eq_true he⟩

theorem claim_C10_witness :
    (([] : List Int).length ≤ 1 ∧ ([7] : List Int).length ≤ 1) ∧
    (isHeap_until ([] : List Int) = 0 ∧ isHeap ([7] : List Int) = true) :=
  ⟨⟨by decide, by decide⟩,
    ⟨(claim_C10 ([] : List Int) (by decide)).1,
      (claim_C10 ([7] : List Int) (by decide)).2⟩⟩

end Eastl
